import Mathlib

/-!
# Minesweeper web bridge (`src/web/pre.js`): rendering pipeline and status synchronisation

A shallow embedding of the text-rendering functions (`escapeHtml`, `isBoardish`,
`decorateBoardText`, `writeTo`) and of the event handlers (`updateStatus`,
`handleGameStart`) of `pre.js`, followed by the properties proved about them.

JavaScript strings are modelled as `List Char`.  Every character the regular expressions
of `pre.js` distinguish (white space, digits, `& < > # * | + -`) lies in the Basic
Multilingual Plane, so matching element by element agrees with matching on UTF-16 code units.
-/

namespace Minesweeper

/-! ## Character classes of the regular expressions -/

/-- The class `\s` of a JavaScript regular expression: WhiteSpace and LineTerminator. -/
def isSpace (c : Char) : Bool :=
  c.toNat == 9 || c.toNat == 10 || c.toNat == 11 || c.toNat == 12 || c.toNat == 13 ||
  c.toNat == 32 || c.toNat == 160 || c.toNat == 0x1680 ||
  (0x2000 ≤ c.toNat && c.toNat ≤ 0x200A) ||
  c.toNat == 0x2028 || c.toNat == 0x2029 || c.toNat == 0x202F || c.toNat == 0x205F ||
  c.toNat == 0x3000 || c.toNat == 0xFEFF

/-- Line terminators: the characters after which `^` matches under the `m` flag. -/
def isLineTerminator (c : Char) : Bool :=
  c.toNat == 10 || c.toNat == 13 || c.toNat == 0x2028 || c.toNat == 0x2029

/-- The class `\d`, the ASCII digits `0`..`9`. -/
def isDigit (c : Char) : Bool :=
  48 ≤ c.toNat && c.toNat ≤ 57

/-- The class `[1-8]`. -/
def isDigit18 (c : Char) : Bool :=
  49 ≤ c.toNat && c.toNat ≤ 56

/-- The class `[#\*\|]`. -/
def isMarker (c : Char) : Bool :=
  c == '#' || c == '*' || c == '|'

/-- The class `[+\-]`. -/
def isBorder (c : Char) : Bool :=
  c == '+' || c == '-'

/-- The assertion `^` under the `m` flag: at the start of the input or right after a line
terminator.  `prev` is the character before the current position, if any. -/
def lineStart (prev : Option Char) : Bool :=
  match prev with
  | none => true
  | some c => isLineTerminator c

/-! ## `String.prototype.replace` with a global regular expression, and `RegExp.prototype.test` -/

/-- What a successful match hands to the replacement: the matched text followed by the
capture groups (`$0`, `$1`, `$2`, ...). -/
abbrev Captures := List (List Char)

/-- A regular expression tried at one position: `prev` is the character before the position
(for `^`), the list is the input from the position on. -/
abbrev Regex := Option Char → List Char → Option Captures

/-- The scan of `s.replace(re, repl)` for a global `re`.  The first argument counts the
characters still covered by the previous match (the distance to `lastIndex`); they were
replaced already and are skipped.  At a free position the expression is tried: a match
emits its replacement and moves `lastIndex` behind the matched text (one character further
when the match is empty), a failure copies the character. -/
def replaceFrom (re : Regex) (repl : Captures → List Char) :
    Nat → Option Char → List Char → List Char
  | 0, prev, [] =>
    match re prev [] with
    | some caps => repl caps
    | none => []
  | _ + 1, _, [] => []
  | k + 1, _, c :: rest => replaceFrom re repl k (some c) rest
  | 0, prev, c :: rest =>
    match re prev (c :: rest) with
    | some caps =>
      match (caps.headD []).length with
      | 0 => repl caps ++ c :: replaceFrom re repl 0 (some c) rest
      | n + 1 => repl caps ++ replaceFrom re repl n (some c) rest
    | none => c :: replaceFrom re repl 0 (some c) rest

/-- The call `s.replace(re, repl)` with a global `re`: the scan from the start of `s`. -/
def replaceG (re : Regex) (repl : Captures → List Char) (s : List Char) : List Char :=
  replaceFrom re repl 0 none s

/-- The scan of `re.test(s)`: is there a position at which the expression matches. -/
def testFrom (re : Option Char → List Char → Bool) : Option Char → List Char → Bool
  | prev, [] => re prev []
  | prev, c :: rest => re prev (c :: rest) || testFrom re (some c) rest

/-! ## `escapeHtml` -/

/-- A regular expression made of one literal character, such as `/&/`. -/
def charRe (x : Char) : Regex := fun _ l =>
  match l with
  | c :: _ => if c == x then some [[c]] else none
  | [] => none

/-- The function `escapeHtml(s)`:
`s.replace(/&/g, "&amp;").replace(/</g, "&lt;").replace(/>/g, "&gt;")`. -/
def escapeHtml (s : List Char) : List Char :=
  replaceG (charRe '>') (fun _ => "&gt;".toList)
    (replaceG (charRe '<') (fun _ => "&lt;".toList)
      (replaceG (charRe '&') (fun _ => "&amp;".toList) s))

/-! ## `isBoardish` -/

/-- Three consecutive characters of the classes `p`, `q`, `r`, as in `\s[1-8]\s`. -/
def tripleAt (p q r : Char → Bool) (l : List Char) : Bool :=
  match l with
  | a :: d :: b :: _ => p a && q d && r b
  | _ => false

/-- The pattern `\s*\|` of the lookahead `(?=\s*\|)`: greedy white space, then `|`. -/
def barAhead : List Char → Bool
  | [] => false
  | c :: rest => (isSpace c && barAhead rest) || c == '|'

/-- The pattern `\d{1,2}(?=\s*\|)`: two digits are tried first, then one; the matched
digits are returned.  After a digit that ends the input the lookahead has nothing to match. -/
def digitsBar (l : List Char) : Option (List Char) :=
  match l with
  | [] => none
  | d1 :: rest =>
    if isDigit d1 then
      match rest with
      | [] => none
      | d2 :: rest2 =>
        if isDigit d2 && barAhead rest2 then some [d1, d2]
        else if barAhead rest then some [d1]
        else none
    else none

/-- The pattern `(?:\s{1,2}\d{1,2})(?=\s*\|)` of the third alternative of `isBoardish`:
two white-space characters are tried first, then one. -/
def rowLabelAt (l : List Char) : Bool :=
  match l with
  | [] => false
  | a :: rest =>
    isSpace a &&
      ((match rest with
        | [] => false
        | b :: rest2 => isSpace b && (digitsBar rest2).isSome) ||
       (digitsBar rest).isSome)

/-- The expression of `isBoardish` tried at one position:
`(\s[1-8]\s)|(\s[#\*\|]\s)|(^(?:\s{1,2}\d{1,2})(?=\s*\|))|(\s[+\-]\s)` with flag `m`. -/
def boardishAt (prev : Option Char) (l : List Char) : Bool :=
  tripleAt isSpace isDigit18 isSpace l ||
  tripleAt isSpace isMarker isSpace l ||
  (lineStart prev && rowLabelAt l) ||
  tripleAt isSpace isBorder isSpace l

/-- The function `isBoardish(text)`: the expression tested against the text. -/
def isBoardish (text : List Char) : Bool :=
  testFrom boardishAt none text

/-! ## `decorateBoardText` and `writeTo` -/

/-- The expression `/(\s)([1-8])(\s)/g` of the first substitution. -/
def numRe : Regex := fun _ l =>
  match l with
  | a :: d :: b :: _ =>
    if isSpace a && isDigit18 d && isSpace b then some [[a, d, b], [a], [d], [b]] else none
  | _ => none

/-- The replacement pattern `'$1<span class="num$2">$2</span>$3'`. -/
def numRepl : Captures → List Char
  | [_, g1, g2, g3] =>
    g1 ++ "<span class=\"num".toList ++ g2 ++ "\">".toList ++ g2 ++ "</span>".toList ++ g3
  | _ => []

/-- The pattern `\s*\d{1,2}(?=\s*\|)`, the rest of `\s{1,}\d{1,2}(?=\s*\|)` after its first
white-space character: more white space is tried first, then the digits.  Returns the white
space and the digits matched. -/
def spacesDigitsBar : List Char → Option (List Char × List Char)
  | [] => none
  | c :: rest =>
    if isSpace c then
      match spacesDigitsBar rest with
      | some (sp, num) => some (c :: sp, num)
      | none => (digitsBar (c :: rest)).map (fun num => ([], num))
    else (digitsBar (c :: rest)).map (fun num => ([], num))

/-- The expression `/^(\s{1,})(\d{1,2})(?=\s*\|)/gm` of the second substitution. -/
def labelRe : Regex := fun prev l =>
  if lineStart prev then
    match l with
    | [] => none
    | c :: rest =>
      if isSpace c then
        (spacesDigitsBar rest).map (fun m => [c :: m.1 ++ m.2, c :: m.1, m.2])
      else none
  else none

/-- The replacement callback `function (_m, sp, num)` of the second substitution. -/
def labelRepl : Captures → List Char
  | [_, sp, num] => sp ++ "<span class=\"label\">".toList ++ num ++ "</span>".toList
  | _ => []

/-- The function `decorateBoardText(text)`: escape, colour the numbers, colour the row labels. -/
def decorateBoardText (text : List Char) : List Char :=
  replaceG labelRe labelRepl (replaceG numRe numRepl (escapeHtml text))

/-- The HTML that `writeTo(out, text)` appends to `out.innerHTML`. -/
def renderHtml (text : List Char) : List Char :=
  if isBoardish text then decorateBoardText text else escapeHtml text

/-! ## Page state and the engine boundary -/

/-- The element `#input` as the handlers use it: its text, the DOM flag `disabled` that
makes the field refuse input, and the property `enabled`, which the DOM does not define
and which exists only once a script assigns it. -/
structure InputEl where
  value : List Char
  disabled : Bool
  enabled : Option Bool
  deriving DecidableEq, Repr

/-- The calls `Module.ccall(...)` across the engine boundary. -/
inductive Call where
  | init (cols rows : Int)
  | submit (move : List Char)
  | columns
  | rows
  | minesTotal
  | flags
  | revealed
  | state
  deriving DecidableEq, Repr

/-- The variables of the closure of `pre.js` and the part of the document they reach.  An
element reference is `none` when `getElementById` found nothing.  `shakes` counts the runs
of `triggerShake`; `calls` records the boundary calls in the order they were made. -/
structure World where
  runtimeReady : Bool
  gameInitialized : Bool
  lastGameState : Int
  outputEl : Option (List Char)
  colsEl : Option (List Char)
  rowsEl : Option (List Char)
  stSize : Option (List Char)
  stMines : Option (List Char)
  stFlags : Option (List Char)
  stRevealed : Option (List Char)
  stState : Option (List Char)
  inputEl : Option InputEl
  shakes : Nat
  calls : List Call
  deriving DecidableEq, Repr

/-- What the engine does during `js_init` or `js_submit`: the texts it hands to
`Module.print` (the joined arguments of each call), and whether the call then throws. -/
structure EngineRun where
  printed : List (List Char)
  throws : Bool
  deriving DecidableEq, Repr

/-- The function `writeTo(out, text)` on `outputEl`: nothing without the element, otherwise
`out.innerHTML += html`. -/
def writeTo (w : World) (text : List Char) : World :=
  { w with outputEl := w.outputEl.map (fun html => html ++ renderHtml text) }

/-- The function `Module.clearOutput()`: `outputEl.innerHTML = ""` when the element exists. -/
def clearOutput (w : World) : World :=
  { w with outputEl := w.outputEl.map (fun _ => []) }

/-- The function `Module.print(...)`: the joined arguments and a newline go to `writeTo`. -/
def modulePrint (w : World) (joined : List Char) : World :=
  writeTo w (joined ++ "\n".toList)

/-- The function `triggerShake()`: one more run of the shake animation. -/
def triggerShake (w : World) : World :=
  { w with shakes := w.shakes + 1 }

/-- The function `getGameStateText(stateValue)`. -/
def getGameStateText (stateValue : Int) : List Char :=
  if stateValue = 0 then "Playing".toList
  else if stateValue = 1 then "Won".toList
  else if stateValue = 2 then "Lost".toList
  else "â€”".toList

/-- The expression `(n || 0)` on an integer. -/
def orZero (n : Int) : Int :=
  if n = 0 then 0 else n

/-- The text of an integer as string concatenation produces it. -/
def numText (n : Int) : List Char :=
  (toString n).toList

/-- A boundary call is recorded. -/
def logCall (w : World) (c : Call) : World :=
  { w with calls := w.calls ++ [c] }

/-- The five assignments to `textContent` in `updateStatus`, each guarded by the presence
of its element. -/
def showStatus (C R M F RV S : Int) (w : World) : World :=
  { w with
    stSize := w.stSize.map (fun _ =>
      "Size: ".toList ++ numText (orZero C) ++ "x".toList ++ numText (orZero R))
    stMines := w.stMines.map (fun _ => "Mines: ".toList ++ numText (orZero M))
    stFlags := w.stFlags.map (fun _ => "Flags: ".toList ++ numText (orZero F))
    stRevealed := w.stRevealed.map (fun _ => "Revealed: ".toList ++ numText (orZero RV))
    stState := w.stState.map (fun _ => "State: ".toList ++ getGameStateText S) }

/-- The end of the `try` block of `updateStatus`:
`if (S === 2 && lastGameState !== 2) { triggerShake(); inputEl.enabled = false; }` and then
`lastGameState = S`.  The assignment to a property of an absent `inputEl` throws, and the
block is left before `lastGameState` is assigned. -/
def detectLoss (S : Int) (w : World) : World :=
  if S = 2 ∧ w.lastGameState ≠ 2 then
    match (triggerShake w).inputEl with
    | none => triggerShake w
    | some el =>
      { triggerShake w with
        inputEl := some { el with enabled := some false }, lastGameState := S }
  else { w with lastGameState := S }

/-- The function `updateStatus()`.  `eng c` is what the status accessor `c` returns, `none`
when it throws.  A throw inside the `try` block leaves the block at that point: what was
done stays done, the rest is skipped. -/
def updateStatus (eng : Call → Option Int) (w : World) : World :=
  if w.runtimeReady then
    match eng Call.columns with
    | none => logCall w Call.columns
    | some C =>
    let w := logCall w Call.columns
    match eng Call.rows with
    | none => logCall w Call.rows
    | some R =>
    let w := logCall w Call.rows
    match eng Call.minesTotal with
    | none => logCall w Call.minesTotal
    | some M =>
    let w := logCall w Call.minesTotal
    match eng Call.flags with
    | none => logCall w Call.flags
    | some F =>
    let w := logCall w Call.flags
    match eng Call.revealed with
    | none => logCall w Call.revealed
    | some RV =>
    let w := logCall w Call.revealed
    match eng Call.state with
    | none => logCall w Call.state
    | some S => detectLoss S (showStatus C R M F RV S (logCall w Call.state))
  else w

/-- The value of the digits of a decimal numeral. -/
def digitsValue (ds : List Char) : Nat :=
  ds.foldl (fun acc c => acc * 10 + (c.toNat - 48)) 0

/-- The call `parseInt(s, 10)`: leading white space is dropped, a sign is read, then the
longest run of digits; `none` stands for `NaN`.  The integer is kept exact; the rounding of
a long numeral to a double does not change how it compares with 1. -/
def parseInt10 (s : List Char) : Option Int :=
  let t := s.dropWhile isSpace
  let neg := t.head? == some '-'
  let u := if t.head? == some '-' || t.head? == some '+' then t.tail else t
  let ds := u.takeWhile isDigit
  if ds.isEmpty then none
  else some (if neg then -(digitsValue ds : Int) else (digitsValue ds : Int))

/-- The expression `el && el.value ? el.value : "10"`. -/
def valueOr10 (el : Option (List Char)) : List Char :=
  match el with
  | none => "10".toList
  | some v => if v.isEmpty then "10".toList else v

/-- The test `cols > 1 && rows > 1`; a comparison with `NaN` is false. -/
def sizesValid (cols rows : Option Int) : Bool :=
  match cols, rows with
  | some c, some r => decide (c > 1) && decide (r > 1)
  | _, _ => false

/-- The function `handleGameStart()`.  `run` is what the engine does during `js_init`, `eng`
what the status accessors return afterwards.  The closing `inputEl.focus()` sits in a `try`
of its own and changes nothing recorded here. -/
def handleGameStart (run : EngineRun) (eng : Call → Option Int) (w : World) : World :=
  if w.runtimeReady then
    let cols := parseInt10 (valueOr10 w.colsEl)
    let rows := parseInt10 (valueOr10 w.rowsEl)
    if sizesValid cols rows then
      let w := clearOutput w
      let w := logCall w (Call.init (cols.getD 0) (rows.getD 0))
      let w := run.printed.foldl modulePrint w
      if run.throws then w
      else updateStatus eng { w with gameInitialized := true }
    else writeTo w "Invalid sizes. Use numbers greater than 1.\n".toList
  else writeTo w "[Loading WASM... try again]\n".toList

/-- The page after a run of polls, each with the replies of its status accessors. -/
def pollAll (w : World) (polls : List (Call → Option Int)) : World :=
  polls.foldl (fun acc eng => updateStatus eng acc) w

/-- The replies of a poll in which every accessor returns; `s` is the state observed. -/
def okPoll (c r m f rv s : Int) : Call → Option Int
  | Call.columns => some c
  | Call.rows => some r
  | Call.minesTotal => some m
  | Call.flags => some f
  | Call.revealed => some rv
  | Call.state => some s
  | _ => none

/-- A page right after `Module.onRuntimeInitialized`: runtime ready, no game started, the
sentinel in `lastGameState`, every element present. -/
def readyPage : World :=
  { runtimeReady := true, gameInitialized := false, lastGameState := -1,
    outputEl := some "Press Start to create a board and begin playing.\n".toList,
    colsEl := some "10".toList, rowsEl := some "10".toList,
    stSize := some [], stMines := some [], stFlags := some [], stRevealed := some [],
    stState := some [],
    inputEl := some { value := [], disabled := false, enabled := none },
    shakes := 0, calls := [] }

/-! ## Definitions used to state the properties -/

/-- The translation of one character that the specification gives for the sanitizer: `&`
becomes `&amp;`, `<` becomes `&lt;`, `>` becomes `&gt;`, any other character stays. -/
def escapeChar (c : Char) : List Char :=
  if c = '&' then "&amp;".toList
  else if c = '<' then "&lt;".toList
  else if c = '>' then "&gt;".toList
  else [c]

/-- Every status accessor of the poll returns. -/
def pollReturns (eng : Call → Option Int) : Bool :=
  (eng Call.columns).isSome && (eng Call.rows).isSome && (eng Call.minesTotal).isSome &&
  (eng Call.flags).isSome && (eng Call.revealed).isSome && (eng Call.state).isSome

/-- The state the last poll of `polls` observed, `sentinel` when there was none. -/
def lastObserved (sentinel : Int) (polls : List (Call → Option Int)) : Int :=
  match polls.getLast? with
  | none => sentinel
  | some eng => (eng Call.state).getD sentinel

/-- A successful poll of a lost 10x10 game. -/
def lostPoll : Call → Option Int := okPoll 10 10 15 3 20 2

/-- A successful poll of a 10x10 game being played. -/
def playingPoll : Call → Option Int := okPoll 10 10 15 0 0 0

/-- A poll whose fourth accessor, `js_status_flags`, throws while reporting a lost game. -/
def faultyPoll : Call → Option Int
  | Call.flags => none
  | c => lostPoll c

/-- The ready page with 1 typed into the columns field and 5 into the rows field. -/
def oneByFivePage : World :=
  { readyPage with colsEl := some "1".toList, rowsEl := some "5".toList }

/-- An engine whose `js_init` throws before printing anything. -/
def initFault : EngineRun :=
  { printed := [], throws := true }

/-- The message of `handleGameStart` for rejected sizes. -/
def invalidSizesMessage : List Char :=
  "Invalid sizes. Use numbers greater than 1.\n".toList

/-- The position after `pre` is the start of a line: `pre` is empty or ends in a line
terminator. -/
def AtLineStart (pre : List Char) : Prop :=
  pre = [] ∨ ∃ p c, pre = p ++ [c] ∧ isLineTerminator c = true

/-- The text contains a character of the class `mid` with white space right before and
right after it. -/
def HasFlanked (mid : Char → Bool) (t : List Char) : Prop :=
  ∃ pre a m b post, t = pre ++ a :: m :: b :: post ∧
    isSpace a = true ∧ mid m = true ∧ isSpace b = true

/-- The text contains a line that begins with 1 or 2 white-space characters, then 1 or 2
digits, then optional white space, then `|`. -/
def HasRowLabel (t : List Char) : Prop :=
  ∃ pre sp ds ws post, t = pre ++ sp ++ ds ++ ws ++ '|' :: post ∧ AtLineStart pre ∧
    (sp.length = 1 ∨ sp.length = 2) ∧ (∀ c ∈ sp, isSpace c = true) ∧
    (ds.length = 1 ∨ ds.length = 2) ∧ (∀ c ∈ ds, isDigit c = true) ∧
    (∀ c ∈ ws, isSpace c = true)

/-- The four patterns of the classifier, the row-label pattern with its leading white space:
a white-space-flanked digit 1..8, a white-space-flanked `#`, `*` or `|`, a row label, a
white-space-flanked `+` or `-`. -/
def BoardishPatterns (t : List Char) : Prop :=
  HasFlanked (fun m => decide (49 ≤ m.toNat ∧ m.toNat ≤ 56)) t ∨
  HasFlanked (fun m => decide (m = '#' ∨ m = '*' ∨ m = '|')) t ∨
  HasRowLabel t ∨
  HasFlanked (fun m => decide (m = '+' ∨ m = '-')) t

/-- The numbered style tag around the digit `d`: `<span class="numd">d</span>`. -/
def numTag (d : Char) : List Char :=
  "<span class=\"num".toList ++ [d] ++ "\">".toList ++ [d] ++ "</span>".toList

/-- The label tag around the digits `ds`: `<span class="label">ds</span>`. -/
def labelTag (ds : List Char) : List Char :=
  "<span class=\"label\">".toList ++ ds ++ "</span>".toList

/-- A piece of rendered output: a character of the escaped text left as it is, a digit
inside a numbered style tag, or a digit sequence inside a label tag. -/
inductive Piece where
  | plain (c : Char)
  | num (d : Char)
  | label (ds : List Char)
  deriving DecidableEq, Repr

/-- The HTML of a piece. -/
def Piece.html : Piece → List Char
  | Piece.plain c => [c]
  | Piece.num d => numTag d
  | Piece.label ds => labelTag ds

/-- The text of a piece: its HTML with the inserted tags deleted. -/
def Piece.text : Piece → List Char
  | Piece.plain c => [c]
  | Piece.num d => [d]
  | Piece.label ds => ds

/-- A plain piece is no markup character, a numbered tag holds one digit 1..8, a label tag
holds 1 or 2 digits. -/
def Piece.WellFormed : Piece → Prop
  | Piece.plain c => c ≠ '<' ∧ c ≠ '>'
  | Piece.num d => isDigit18 d = true
  | Piece.label ds => (ds.length = 1 ∨ ds.length = 2) ∧ ∀ c ∈ ds, isDigit c = true

/-- The character before the position reached after reading `read` from a position whose
previous character was `prev`. -/
def prevAfter (prev : Option Char) (read : List Char) : Option Char :=
  match read.getLast? with
  | some c => some c
  | none => prev

/-- A board of two lines whose second line carries the row label 10. -/
def labelledBoard : List Char :=
  " 1 | # 2 \n 10 | 4 | 5\n".toList

/-! # Properties -/

/-! ## The sanitizer -/

theorem replaceFrom_charRe (x : Char) (r : List Char) (p : Option Char) (l : List Char) :
    replaceFrom (charRe x) (fun _ => r) 0 p l = l.flatMap (fun c => if c = x then r else [c]) := by
  induction l generalizing p with
  | nil => simp [replaceFrom, charRe]
  | cons c rest ih =>
    by_cases h : c = x
    · simp [replaceFrom, charRe, h, ih]
    · simp [replaceFrom, charRe, h, ih]

theorem escapeHtml_eq_flatMap (s : List Char) : escapeHtml s = s.flatMap escapeChar := by
  unfold escapeHtml replaceG
  rw [replaceFrom_charRe, replaceFrom_charRe, replaceFrom_charRe]
  induction s with
  | nil => rfl
  | cons c rest ih =>
    simp only [List.flatMap_cons, List.flatMap_append, ih]
    congr 1
    unfold escapeChar
    by_cases h1 : c = '&'
    · subst h1; decide
    · by_cases h2 : c = '<'
      · subst h2; decide
      · by_cases h3 : c = '>'
        · subst h3; decide
        · simp [h1, h2, h3]

theorem escapeChar_no_markup (c x : Char) (hx : x ∈ escapeChar c) : x ≠ '<' ∧ x ≠ '>' := by
  unfold escapeChar at hx
  by_cases h1 : c = '&'
  · rw [if_pos h1] at hx
    revert x; decide
  · by_cases h2 : c = '<'
    · rw [if_neg h1, if_pos h2] at hx
      revert x; decide
    · by_cases h3 : c = '>'
      · rw [if_neg h1, if_neg h2, if_pos h3] at hx
        revert x; decide
      · rw [if_neg h1, if_neg h2, if_neg h3] at hx
        simp at hx
        subst hx
        exact ⟨h2, h3⟩

theorem escapeHtml_no_markup (s : List Char) (x : Char) (hx : x ∈ escapeHtml s) :
    x ≠ '<' ∧ x ≠ '>' := by
  rw [escapeHtml_eq_flatMap, List.mem_flatMap] at hx
  obtain ⟨c, _, hc⟩ := hx
  exact escapeChar_no_markup c x hc

/-- C2: `escapeHtml(s)` is the character-by-character translation of `s` that maps `&` to
`&amp;`, `<` to `&lt;`, `>` to `&gt;` and every other character to itself, and its result
contains neither `<` nor `>`. -/
theorem escapeHtml_charwise (s : List Char) :
    escapeHtml s = s.flatMap escapeChar ∧ '<' ∉ escapeHtml s ∧ '>' ∉ escapeHtml s :=
  ⟨escapeHtml_eq_flatMap s,
   fun h => (escapeHtml_no_markup s _ h).1 rfl,
   fun h => (escapeHtml_no_markup s _ h).2 rfl⟩


/-! ## Status synchronisation -/

theorem updateStatus_not_ready (eng : Call → Option Int) (w : World)
    (h : w.runtimeReady = false) : updateStatus eng w = w := by
  simp [updateStatus, h]

theorem updateStatus_fault_frame (eng : Call → Option Int) (w : World)
    (h : pollReturns eng = false) :
    ∃ cs, updateStatus eng w = { w with calls := w.calls ++ cs } := by
  unfold updateStatus
  by_cases hr : w.runtimeReady = true
  · rw [if_pos hr]
    cases hC : eng Call.columns with
    | none => exact ⟨[Call.columns], rfl⟩
    | some C =>
    cases hR : eng Call.rows with
    | none => exact ⟨[Call.columns, Call.rows], by simp [logCall]⟩
    | some R =>
    cases hM : eng Call.minesTotal with
    | none => exact ⟨[Call.columns, Call.rows, Call.minesTotal], by simp [logCall]⟩
    | some M =>
    cases hF : eng Call.flags with
    | none => exact ⟨[Call.columns, Call.rows, Call.minesTotal, Call.flags], by simp [logCall]⟩
    | some F =>
    cases hV : eng Call.revealed with
    | none =>
      exact ⟨[Call.columns, Call.rows, Call.minesTotal, Call.flags, Call.revealed],
        by simp [logCall]⟩
    | some RV =>
    cases hS : eng Call.state with
    | none =>
      exact ⟨[Call.columns, Call.rows, Call.minesTotal, Call.flags, Call.revealed, Call.state],
        by simp [logCall]⟩
    | some S => simp [pollReturns, hC, hR, hM, hF, hV, hS] at h
  · rw [if_neg hr]
    exact ⟨[], by simp⟩

/-- C6: when one of the six status accessors throws, or when the runtime is not ready,
`updateStatus` returns with `lastGameState`, the five status fields and the shake count
unchanged; when the runtime is not ready no accessor is called at all. -/
theorem updateStatus_fault_is_noop (eng : Call → Option Int) (w : World)
    (h : pollReturns eng = false ∨ w.runtimeReady = false) :
    (updateStatus eng w).lastGameState = w.lastGameState ∧
    (updateStatus eng w).stSize = w.stSize ∧
    (updateStatus eng w).stMines = w.stMines ∧
    (updateStatus eng w).stFlags = w.stFlags ∧
    (updateStatus eng w).stRevealed = w.stRevealed ∧
    (updateStatus eng w).stState = w.stState ∧
    (updateStatus eng w).shakes = w.shakes ∧
    (updateStatus eng w).inputEl = w.inputEl ∧
    (w.runtimeReady = false → (updateStatus eng w).calls = w.calls) := by
  have key : ∃ cs, updateStatus eng w = { w with calls := w.calls ++ cs } := by
    rcases h with h | h
    · exact updateStatus_fault_frame eng w h
    · exact ⟨[], by simp [updateStatus_not_ready eng w h]⟩
  obtain ⟨cs, hcs⟩ := key
  refine ⟨?_, ?_, ?_, ?_, ?_, ?_, ?_, ?_, ?_⟩
  · rw [hcs]
  · rw [hcs]
  · rw [hcs]
  · rw [hcs]
  · rw [hcs]
  · rw [hcs]
  · rw [hcs]
  · rw [hcs]
  · intro hr
    rw [updateStatus_not_ready eng w hr]

theorem updateStatus_fault_is_noop_witness :
    pollReturns faultyPoll = false ∧
    (updateStatus faultyPoll readyPage).lastGameState = -1 ∧
    (updateStatus faultyPoll readyPage).stState = some [] ∧
    (updateStatus faultyPoll readyPage).shakes = 0 :=
  have h := updateStatus_fault_is_noop faultyPoll readyPage (Or.inl (by decide))
  ⟨by decide, h.1, h.2.2.2.2.2.1, h.2.2.2.2.2.2.1⟩

@[simp] theorem logCall_runtimeReady (w : World) (c : Call) :
    (logCall w c).runtimeReady = w.runtimeReady := rfl

@[simp] theorem logCall_inputEl (w : World) (c : Call) :
    (logCall w c).inputEl = w.inputEl := rfl

@[simp] theorem logCall_lastGameState (w : World) (c : Call) :
    (logCall w c).lastGameState = w.lastGameState := rfl

@[simp] theorem logCall_shakes (w : World) (c : Call) :
    (logCall w c).shakes = w.shakes := rfl

@[simp] theorem showStatus_runtimeReady (C R M F RV S : Int) (w : World) :
    (showStatus C R M F RV S w).runtimeReady = w.runtimeReady := rfl

@[simp] theorem showStatus_inputEl (C R M F RV S : Int) (w : World) :
    (showStatus C R M F RV S w).inputEl = w.inputEl := rfl

@[simp] theorem showStatus_lastGameState (C R M F RV S : Int) (w : World) :
    (showStatus C R M F RV S w).lastGameState = w.lastGameState := rfl

@[simp] theorem showStatus_shakes (C R M F RV S : Int) (w : World) :
    (showStatus C R M F RV S w).shakes = w.shakes := rfl

theorem detectLoss_ok (s : Int) (w : World) (el : InputEl)
    (hready : w.runtimeReady = true) (hinput : w.inputEl = some el) :
    (detectLoss s w).lastGameState = s ∧
    (detectLoss s w).runtimeReady = true ∧
    (∃ el2, (detectLoss s w).inputEl = some el2) ∧
    (detectLoss s w).shakes = if s = 2 ∧ w.lastGameState ≠ 2 then w.shakes + 1 else w.shakes := by
  unfold detectLoss
  by_cases hc : s = 2 ∧ w.lastGameState ≠ 2
  · rw [if_pos hc, if_pos hc]
    simp [triggerShake, hinput, hready]
  · rw [if_neg hc, if_neg hc]
    simp [hinput, hready]

theorem updateStatus_ok (eng : Call → Option Int) (w : World) (s : Int) (el : InputEl)
    (hready : w.runtimeReady = true) (hinput : w.inputEl = some el)
    (hret : pollReturns eng = true) (hs : eng Call.state = some s) :
    (updateStatus eng w).lastGameState = s ∧
    (updateStatus eng w).runtimeReady = true ∧
    (∃ el2, (updateStatus eng w).inputEl = some el2) ∧
    (updateStatus eng w).shakes =
      if s = 2 ∧ w.lastGameState ≠ 2 then w.shakes + 1 else w.shakes := by
  unfold updateStatus
  rw [if_pos hready]
  cases hC : eng Call.columns with
  | none => simp [pollReturns, hC] at hret
  | some C =>
  cases hR : eng Call.rows with
  | none => simp [pollReturns, hR] at hret
  | some R =>
  cases hM : eng Call.minesTotal with
  | none => simp [pollReturns, hM] at hret
  | some M =>
  cases hF : eng Call.flags with
  | none => simp [pollReturns, hF] at hret
  | some F =>
  cases hV : eng Call.revealed with
  | none => simp [pollReturns, hV] at hret
  | some RV =>
  simp only [hs]
  have key : ∀ w2 : World, w2.runtimeReady = true → w2.inputEl = some el →
      w2.lastGameState = w.lastGameState → w2.shakes = w.shakes →
      (detectLoss s w2).lastGameState = s ∧
      (detectLoss s w2).runtimeReady = true ∧
      (∃ el2, (detectLoss s w2).inputEl = some el2) ∧
      (detectLoss s w2).shakes =
        if s = 2 ∧ w.lastGameState ≠ 2 then w.shakes + 1 else w.shakes := by
    intro w2 h1 h2 h3 h4
    have h := detectLoss_ok s w2 el h1 h2
    rw [h3, h4] at h
    exact h
  refine key _ ?_ ?_ ?_ ?_
  · simp only [showStatus_runtimeReady, logCall_runtimeReady, hready]
  · simp only [showStatus_inputEl, logCall_inputEl, hinput]
  · simp only [showStatus_lastGameState, logCall_lastGameState]
  · simp only [showStatus_shakes, logCall_shakes]

theorem pollAll_snoc (w : World) (polls : List (Call → Option Int)) (eng : Call → Option Int) :
    pollAll w (polls ++ [eng]) = updateStatus eng (pollAll w polls) := by
  simp [pollAll, List.foldl_append]

theorem pollAll_ok (w : World) (el : InputEl) (polls : List (Call → Option Int))
    (hready : w.runtimeReady = true) (hinput : w.inputEl = some el)
    (hret : ∀ e ∈ polls, pollReturns e = true) :
    (pollAll w polls).runtimeReady = true ∧
    (∃ el2, (pollAll w polls).inputEl = some el2) ∧
    (pollAll w polls).lastGameState = lastObserved w.lastGameState polls := by
  induction polls using List.reverseRecOn with
  | nil => exact ⟨hready, ⟨el, hinput⟩, rfl⟩
  | append_singleton ps e ih =>
    have ih2 := ih (fun x hx => hret x (by simp [hx]))
    obtain ⟨h1, ⟨el2, h2⟩, _⟩ := ih2
    have he : pollReturns e = true := hret e (by simp)
    have hsome : ∃ s, e Call.state = some s := by
      cases hS : e Call.state with
      | none => simp [pollReturns, hS] at he
      | some s => exact ⟨s, rfl⟩
    obtain ⟨s, hs⟩ := hsome
    have hu := updateStatus_ok e (pollAll w ps) s el2 h1 h2 he hs
    rw [pollAll_snoc]
    refine ⟨hu.2.1, hu.2.2.1, ?_⟩
    rw [hu.1]
    simp [lastObserved, hs]

/-- C5 (amended): starting from the sentinel `lastGameState = -1`, in a run of successful
polls the shake fires on a poll exactly when that poll observes state 2 and the poll right
before it (the sentinel, for the first poll) did not observe state 2; otherwise the shake
count stays; after the poll `lastGameState` is the state just observed. -/
theorem shake_fires_on_transition_to_lost (w : World) (el : InputEl)
    (before : List (Call → Option Int)) (eng : Call → Option Int) (s : Int)
    (hready : w.runtimeReady = true) (hinput : w.inputEl = some el)
    (hsentinel : w.lastGameState = -1)
    (hbefore : ∀ e ∈ before, pollReturns e = true)
    (hret : pollReturns eng = true) (hs : eng Call.state = some s) :
    (updateStatus eng (pollAll w before)).shakes =
      (if s = 2 ∧ lastObserved (-1) before ≠ 2 then (pollAll w before).shakes + 1
       else (pollAll w before).shakes) ∧
    (updateStatus eng (pollAll w before)).lastGameState = s := by
  obtain ⟨h1, ⟨el2, h2⟩, h3⟩ := pollAll_ok w el before hready hinput hbefore
  have hu := updateStatus_ok eng (pollAll w before) s el2 h1 h2 hret hs
  rw [h3, hsentinel] at hu
  exact ⟨hu.2.2.2, hu.1⟩

theorem shake_fires_on_transition_to_lost_witness :
    (updateStatus lostPoll (pollAll readyPage [lostPoll, playingPoll])).shakes =
      (if (2 : Int) = 2 ∧ lastObserved (-1) [lostPoll, playingPoll] ≠ 2
        then (pollAll readyPage [lostPoll, playingPoll]).shakes + 1
        else (pollAll readyPage [lostPoll, playingPoll]).shakes) ∧
    (updateStatus lostPoll (pollAll readyPage [lostPoll, playingPoll])).lastGameState = 2 :=
  shake_fires_on_transition_to_lost readyPage
    { value := [], disabled := false, enabled := none } [lostPoll, playingPoll] lostPoll 2
    rfl rfl rfl (by decide) (by decide) rfl

/-- C5 as stated fails: in the run Lost, Playing, Lost from the sentinel the third poll
observes state 2 after the first poll observed state 2 already, and the shake fires on it
again (the count goes from 1 to 2). -/
theorem shake_fires_again_after_playing :
    lostPoll Call.state = some 2 ∧
    (pollAll readyPage [lostPoll]).shakes = 1 ∧
    (pollAll readyPage [lostPoll, playingPoll]).shakes = 1 ∧
    (pollAll readyPage [lostPoll, playingPoll, lostPoll]).shakes = 2 := by
  decide

/-- C9 at a failing input: after a successful poll that observes Lost for the first time,
the input element has the new property `enabled = false` and its `disabled` flag is still
false, although the shake fired. -/
theorem input_not_disabled_after_loss :
    readyPage.lastGameState ≠ 2 ∧
    lostPoll Call.state = some 2 ∧
    (updateStatus lostPoll readyPage).shakes = 1 ∧
    (updateStatus lostPoll readyPage).inputEl =
      some { value := [], disabled := false, enabled := some false } := by
  decide


/-! ## Starting a game -/

set_option maxRecDepth 4000 in
theorem renderHtml_invalidSizesMessage : renderHtml invalidSizesMessage = invalidSizesMessage := by
  decide

theorem foldl_modulePrint (printed : List (List Char)) (w : World) :
    printed.foldl modulePrint w =
      { w with outputEl := w.outputEl.map (fun html =>
          html ++ printed.flatMap (fun t => renderHtml (t ++ "\n".toList))) } := by
  induction printed generalizing w with
  | nil => cases w; simp
  | cons t rest ih =>
    rw [List.foldl_cons, ih]
    cases h : w.outputEl <;> simp [modulePrint, writeTo, h]

/-- C7: with the runtime ready and sizes that fail `cols > 1 && rows > 1`, `handleGameStart`
changes nothing but the output, to which it appends exactly the message
`Invalid sizes. Use numbers greater than 1.\n`: no boundary call is recorded, the output is
not cleared, and `gameInitialized`, `lastGameState` and the status panel keep their values. -/
theorem handleGameStart_rejects_invalid_sizes (run : EngineRun) (eng : Call → Option Int)
    (w : World) (hready : w.runtimeReady = true)
    (hbad : sizesValid (parseInt10 (valueOr10 w.colsEl)) (parseInt10 (valueOr10 w.rowsEl))
      = false) :
    handleGameStart run eng w =
      { w with outputEl := w.outputEl.map (fun html => html ++ invalidSizesMessage) } := by
  unfold handleGameStart
  rw [if_pos hready]
  simp only [hbad]
  simp only [writeTo]
  have h := renderHtml_invalidSizesMessage
  unfold invalidSizesMessage at h ⊢
  rw [h]
  rfl

theorem handleGameStart_rejects_invalid_sizes_witness :
    oneByFivePage.runtimeReady = true ∧
    parseInt10 (valueOr10 oneByFivePage.colsEl) = some 1 ∧
    parseInt10 (valueOr10 oneByFivePage.rowsEl) = some 5 ∧
    handleGameStart { printed := [], throws := false } lostPoll oneByFivePage =
      { oneByFivePage with
        outputEl := oneByFivePage.outputEl.map (fun html => html ++ invalidSizesMessage) } :=
  ⟨rfl, by decide, by decide,
   handleGameStart_rejects_invalid_sizes { printed := [], throws := false } lostPoll
     oneByFivePage rfl (by decide)⟩

/-- C8 (amended): with the runtime ready and valid sizes, when `js_init` throws,
`handleGameStart` leaves the status panel, `gameInitialized`, `lastGameState`, the shake
count and the input element as they were and polls no status accessor, but the output was
cleared before the call: afterwards it holds only what the engine printed during the call. -/
theorem handleGameStart_init_fault (run : EngineRun) (eng : Call → Option Int) (w : World)
    (hready : w.runtimeReady = true)
    (hvalid : sizesValid (parseInt10 (valueOr10 w.colsEl)) (parseInt10 (valueOr10 w.rowsEl))
      = true)
    (hthrow : run.throws = true) :
    handleGameStart run eng w =
      { w with
        outputEl := w.outputEl.map (fun _ =>
          run.printed.flatMap (fun t => renderHtml (t ++ "\n".toList)))
        calls := w.calls ++ [Call.init ((parseInt10 (valueOr10 w.colsEl)).getD 0)
          ((parseInt10 (valueOr10 w.rowsEl)).getD 0)] } := by
  unfold handleGameStart
  rw [if_pos hready]
  simp only [hvalid, hthrow, if_true]
  rw [foldl_modulePrint]
  cases h : w.outputEl <;> simp [logCall, clearOutput, h]

theorem handleGameStart_init_fault_witness :
    handleGameStart initFault lostPoll readyPage =
      { readyPage with
        outputEl := readyPage.outputEl.map (fun _ =>
          initFault.printed.flatMap (fun t => renderHtml (t ++ "\n".toList)))
        calls := readyPage.calls ++ [Call.init ((parseInt10 (valueOr10 readyPage.colsEl)).getD 0)
          ((parseInt10 (valueOr10 readyPage.rowsEl)).getD 0)] } :=
  handleGameStart_init_fault initFault lostPoll readyPage rfl (by decide) rfl

/-- C8 as stated fails: on the ready page, whose output holds the welcome line, with the
valid sizes 10 and 10 and a `js_init` that throws, the output is empty after
`handleGameStart`. -/
theorem output_lost_when_init_throws :
    readyPage.runtimeReady = true ∧
    sizesValid (parseInt10 (valueOr10 readyPage.colsEl))
      (parseInt10 (valueOr10 readyPage.rowsEl)) = true ∧
    initFault.throws = true ∧
    readyPage.outputEl = some "Press Start to create a board and begin playing.\n".toList ∧
    (handleGameStart initFault lostPoll readyPage).outputEl = some [] := by
  decide


/-! ## The classifier -/

theorem testFrom_iff (re : Option Char → List Char → Bool) (prev : Option Char)
    (t : List Char) :
    testFrom re prev t = true ↔
      re prev t = true ∨ ∃ pre c rest, t = pre ++ c :: rest ∧ re (some c) rest = true := by
  induction t generalizing prev with
  | nil => simp [testFrom]
  | cons x xs ih =>
    simp only [testFrom, Bool.or_eq_true, ih]
    constructor
    · rintro (h | h | ⟨pre, c, rest, rfl, h⟩)
      · exact Or.inl h
      · exact Or.inr ⟨[], x, xs, rfl, h⟩
      · exact Or.inr ⟨x :: pre, c, rest, rfl, h⟩
    · rintro (h | ⟨pre, c, rest, heq, h⟩)
      · exact Or.inl h
      · cases pre with
        | nil =>
          simp only [List.nil_append, List.cons.injEq] at heq
          obtain ⟨rfl, rfl⟩ := heq
          exact Or.inr (Or.inl h)
        | cons y ys =>
          simp only [List.cons_append, List.cons.injEq] at heq
          obtain ⟨rfl, rfl⟩ := heq
          exact Or.inr (Or.inr ⟨ys, c, rest, rfl, h⟩)

theorem tripleAt_iff (p q r : Char → Bool) (l : List Char) :
    tripleAt p q r l = true ↔
      ∃ a m b post, l = a :: m :: b :: post ∧ p a = true ∧ q m = true ∧ r b = true := by
  match l with
  | [] => simp [tripleAt]
  | [_] => simp [tripleAt]
  | [_, _] => simp [tripleAt]
  | a :: m :: b :: post =>
    simp only [tripleAt, Bool.and_eq_true, List.cons.injEq]
    constructor
    · rintro ⟨⟨h1, h2⟩, h3⟩
      exact ⟨a, m, b, post, ⟨rfl, rfl, rfl, rfl⟩, h1, h2, h3⟩
    · rintro ⟨_, _, _, _, ⟨rfl, rfl, rfl, rfl⟩, h1, h2, h3⟩
      exact ⟨⟨h1, h2⟩, h3⟩

theorem isSpace_ne_bar (c : Char) (h : isSpace c = true) : c ≠ '|' := by
  rintro rfl
  revert h
  decide

theorem barAhead_iff (l : List Char) :
    barAhead l = true ↔ ∃ ws post, l = ws ++ '|' :: post ∧ ∀ c ∈ ws, isSpace c = true := by
  induction l with
  | nil => simp [barAhead]
  | cons x xs ih =>
    simp only [barAhead, Bool.or_eq_true, Bool.and_eq_true, ih, beq_iff_eq]
    constructor
    · rintro (⟨hx, ws, post, rfl, hws⟩ | rfl)
      · refine ⟨x :: ws, post, rfl, ?_⟩
        intro c hc
        rcases List.mem_cons.1 hc with rfl | hc
        · exact hx
        · exact hws c hc
      · exact ⟨[], xs, rfl, by simp⟩
    · rintro ⟨ws, post, heq, hws⟩
      cases ws with
      | nil =>
        simp only [List.nil_append, List.cons.injEq] at heq
        exact Or.inr heq.1
      | cons y ys =>
        simp only [List.cons_append, List.cons.injEq] at heq
        obtain ⟨rfl, rfl⟩ := heq
        exact Or.inl ⟨hws x (by simp), ys, post, rfl, fun c hc => hws c (by simp [hc])⟩

theorem barAhead_append (ws post : List Char) (hws : ∀ c ∈ ws, isSpace c = true) :
    barAhead (ws ++ '|' :: post) = true :=
  (barAhead_iff _).2 ⟨ws, post, rfl, hws⟩

theorem digitsBar_eq_some (l ds : List Char) (h : digitsBar l = some ds) :
    ∃ rest, l = ds ++ rest ∧ (ds.length = 1 ∨ ds.length = 2) ∧
      (∀ c ∈ ds, isDigit c = true) ∧ barAhead rest = true := by
  unfold digitsBar at h
  match l, h with
  | [], h => simp at h
  | [d1], h => by_cases hd : isDigit d1 = true <;> simp [hd] at h
  | d1 :: d2 :: rest2, h =>
    by_cases hd : isDigit d1 = true
    · simp only [hd, if_true] at h
      by_cases h2 : (isDigit d2 && barAhead rest2) = true
      · rw [if_pos h2] at h
        simp only [Option.some.injEq] at h
        subst h
        simp only [Bool.and_eq_true] at h2
        exact ⟨rest2, rfl, Or.inr rfl, by simp [hd, h2.1], h2.2⟩
      · rw [if_neg h2] at h
        by_cases h3 : barAhead (d2 :: rest2) = true
        · rw [if_pos h3] at h
          simp only [Option.some.injEq] at h
          subst h
          exact ⟨d2 :: rest2, rfl, Or.inl rfl, by simp [hd], h3⟩
        · rw [if_neg h3] at h
          simp at h
    · simp [hd] at h

theorem digitsBar_isSome_of (ds ws post : List Char)
    (hlen : ds.length = 1 ∨ ds.length = 2) (hds : ∀ c ∈ ds, isDigit c = true)
    (hws : ∀ c ∈ ws, isSpace c = true) :
    (digitsBar (ds ++ ws ++ '|' :: post)).isSome = true := by
  have hbar := barAhead_append ws post hws
  match ds, hlen, hds with
  | [d1], _, hds =>
    have hd : isDigit d1 = true := hds d1 (by simp)
    cases hw : ws ++ '|' :: post with
    | nil => simp at hw
    | cons d2 rest2 =>
      rw [hw] at hbar
      simp only [List.cons_append, List.nil_append, List.append_assoc, hw, digitsBar, hd,
        if_true, hbar]
      by_cases h2 : (isDigit d2 && barAhead rest2) = true
      · simp [h2]
      · simp [h2]
  | [d1, d2], _, hds =>
    have hd1 : isDigit d1 = true := hds d1 (by simp)
    have hd2 : isDigit d2 = true := hds d2 (by simp)
    simp [digitsBar, hd1, hd2, hbar]
  | [], hlen, _ => simp at hlen
  | _ :: _ :: _ :: _, hlen, _ => simp at hlen

theorem digitsBar_isSome_iff (l : List Char) :
    (digitsBar l).isSome = true ↔
      ∃ ds ws post, l = ds ++ ws ++ '|' :: post ∧ (ds.length = 1 ∨ ds.length = 2) ∧
        (∀ c ∈ ds, isDigit c = true) ∧ (∀ c ∈ ws, isSpace c = true) := by
  constructor
  · intro h
    obtain ⟨ds, hds⟩ := Option.isSome_iff_exists.1 h
    obtain ⟨rest, rfl, hlen, hdig, hbar⟩ := digitsBar_eq_some l ds hds
    obtain ⟨ws, post, rfl, hws⟩ := (barAhead_iff rest).1 hbar
    exact ⟨ds, ws, post, by simp, hlen, hdig, hws⟩
  · rintro ⟨ds, ws, post, rfl, hlen, hdig, hws⟩
    exact digitsBar_isSome_of ds ws post hlen hdig hws


theorem rowLabelAt_iff (l : List Char) :
    rowLabelAt l = true ↔
      ∃ sp ds ws post, l = sp ++ ds ++ ws ++ '|' :: post ∧
        (sp.length = 1 ∨ sp.length = 2) ∧ (∀ c ∈ sp, isSpace c = true) ∧
        (ds.length = 1 ∨ ds.length = 2) ∧ (∀ c ∈ ds, isDigit c = true) ∧
        (∀ c ∈ ws, isSpace c = true) := by
  constructor
  · intro h
    match l, h with
    | [], h => simp [rowLabelAt] at h
    | a :: rest, h =>
      simp only [rowLabelAt, Bool.and_eq_true, Bool.or_eq_true] at h
      obtain ⟨ha, h | h⟩ := h
      · match rest, h with
        | [], h => simp at h
        | b :: rest2, h =>
          simp only [Bool.and_eq_true] at h
          obtain ⟨hb, hd⟩ := h
          obtain ⟨ds, ws, post, rfl, hlen, hdig, hws⟩ := (digitsBar_isSome_iff rest2).1 hd
          refine ⟨[a, b], ds, ws, post, by simp, Or.inr rfl, ?_, hlen, hdig, hws⟩
          intro c hc
          simp only [List.mem_cons, List.mem_singleton, List.not_mem_nil, or_false] at hc
          rcases hc with rfl | rfl
          · exact ha
          · exact hb
      · obtain ⟨ds, ws, post, rfl, hlen, hdig, hws⟩ := (digitsBar_isSome_iff rest).1 h
        refine ⟨[a], ds, ws, post, by simp, Or.inl rfl, ?_, hlen, hdig, hws⟩
        intro c hc
        simp only [List.mem_singleton] at hc
        subst hc
        exact ha
  · rintro ⟨sp, ds, ws, post, rfl, hsl, hsp, hlen, hdig, hws⟩
    have hd := digitsBar_isSome_of ds ws post hlen hdig hws
    match sp, hsl, hsp with
    | [a], _, hsp =>
      have ha : isSpace a = true := hsp a (by simp)
      simp only [List.cons_append, List.nil_append, List.append_assoc, rowLabelAt, ha,
        Bool.true_and, Bool.or_eq_true]
      right
      simpa using hd
    | [a, b], _, hsp =>
      have ha : isSpace a = true := hsp a (by simp)
      have hb : isSpace b = true := hsp b (by simp)
      simp only [List.cons_append, List.nil_append, List.append_assoc, rowLabelAt, ha, hb,
        Bool.true_and, Bool.or_eq_true]
      left
      simpa using hd
    | [], hsl, _ => simp at hsl
    | _ :: _ :: _ :: _, hsl, _ => simp at hsl

theorem hasFlanked_iff (mid : Char → Bool) (t : List Char) :
    HasFlanked mid t ↔
      tripleAt isSpace mid isSpace t = true ∨
        ∃ pre c rest, t = pre ++ c :: rest ∧ tripleAt isSpace mid isSpace rest = true := by
  constructor
  · rintro ⟨pre, a, m, b, post, rfl, ha, hm, hb⟩
    have ht : tripleAt isSpace mid isSpace (a :: m :: b :: post) = true :=
      (tripleAt_iff _ _ _ _).2 ⟨a, m, b, post, rfl, ha, hm, hb⟩
    rcases List.eq_nil_or_concat pre with rfl | ⟨p, c, rfl⟩
    · exact Or.inl ht
    · exact Or.inr ⟨p, c, a :: m :: b :: post, by simp, ht⟩
  · rintro (h | ⟨pre, c, rest, rfl, h⟩)
    · obtain ⟨a, m, b, post, rfl, ha, hm, hb⟩ := (tripleAt_iff _ _ _ _).1 h
      exact ⟨[], a, m, b, post, rfl, ha, hm, hb⟩
    · obtain ⟨a, m, b, post, rfl, ha, hm, hb⟩ := (tripleAt_iff _ _ _ _).1 h
      exact ⟨pre ++ [c], a, m, b, post, by simp, ha, hm, hb⟩

theorem hasRowLabel_iff (t : List Char) :
    HasRowLabel t ↔
      rowLabelAt t = true ∨
        ∃ pre c rest, t = pre ++ c :: rest ∧ isLineTerminator c = true ∧
          rowLabelAt rest = true := by
  constructor
  · rintro ⟨pre, sp, ds, ws, post, rfl, hstart, hsl, hsp, hlen, hdig, hws⟩
    have hr : rowLabelAt (sp ++ ds ++ ws ++ '|' :: post) = true :=
      (rowLabelAt_iff _).2 ⟨sp, ds, ws, post, rfl, hsl, hsp, hlen, hdig, hws⟩
    rcases hstart with rfl | ⟨p, c, rfl, hc⟩
    · left
      simpa using hr
    · right
      exact ⟨p, c, sp ++ ds ++ ws ++ '|' :: post, by simp, hc, hr⟩
  · rintro (h | ⟨pre, c, rest, rfl, hc, h⟩)
    · obtain ⟨sp, ds, ws, post, rfl, hsl, hsp, hlen, hdig, hws⟩ := (rowLabelAt_iff _).1 h
      exact ⟨[], sp, ds, ws, post, by simp, Or.inl rfl, hsl, hsp, hlen, hdig, hws⟩
    · obtain ⟨sp, ds, ws, post, rfl, hsl, hsp, hlen, hdig, hws⟩ := (rowLabelAt_iff _).1 h
      exact ⟨pre ++ [c], sp, ds, ws, post, by simp, Or.inr ⟨pre, c, rfl, hc⟩, hsl, hsp, hlen,
        hdig, hws⟩

theorem isDigit18_eq : isDigit18 = fun m => decide (49 ≤ m.toNat ∧ m.toNat ≤ 56) := by
  funext m
  simp [isDigit18]

theorem isMarker_eq : isMarker = fun m => decide (m = '#' ∨ m = '*' ∨ m = '|') := by
  funext m
  rw [Bool.eq_iff_iff]
  simp [isMarker, or_assoc]

theorem isBorder_eq : isBorder = fun m => decide (m = '+' ∨ m = '-') := by
  funext m
  rw [Bool.eq_iff_iff]
  simp [isBorder]

theorem boardishAt_iff (prev : Option Char) (l : List Char) :
    boardishAt prev l = true ↔
      tripleAt isSpace isDigit18 isSpace l = true ∨ tripleAt isSpace isMarker isSpace l = true ∨
        (lineStart prev = true ∧ rowLabelAt l = true) ∨
        tripleAt isSpace isBorder isSpace l = true := by
  simp only [boardishAt, Bool.or_eq_true, Bool.and_eq_true, or_assoc]

theorem isBoardish_iff_patterns (t : List Char) : isBoardish t = true ↔ BoardishPatterns t := by
  unfold isBoardish BoardishPatterns
  rw [testFrom_iff, ← isDigit18_eq, ← isMarker_eq, ← isBorder_eq, hasFlanked_iff,
    hasFlanked_iff, hasFlanked_iff, hasRowLabel_iff]
  constructor
  · rintro (h | ⟨pre, c, rest, rfl, h⟩)
    · rcases (boardishAt_iff _ _).1 h with h | h | ⟨_, h⟩ | h
      · exact Or.inl (Or.inl h)
      · exact Or.inr (Or.inl (Or.inl h))
      · exact Or.inr (Or.inr (Or.inl (Or.inl h)))
      · exact Or.inr (Or.inr (Or.inr (Or.inl h)))
    · rcases (boardishAt_iff _ _).1 h with h | h | ⟨hc, h⟩ | h
      · exact Or.inl (Or.inr ⟨pre, c, rest, rfl, h⟩)
      · exact Or.inr (Or.inl (Or.inr ⟨pre, c, rest, rfl, h⟩))
      · exact Or.inr (Or.inr (Or.inl (Or.inr ⟨pre, c, rest, rfl, hc, h⟩)))
      · exact Or.inr (Or.inr (Or.inr (Or.inr ⟨pre, c, rest, rfl, h⟩)))
  · rintro ((h | ⟨pre, c, rest, rfl, h⟩) | (h | ⟨pre, c, rest, rfl, h⟩) |
      (h | ⟨pre, c, rest, rfl, hc, h⟩) | (h | ⟨pre, c, rest, rfl, h⟩))
    · exact Or.inl ((boardishAt_iff _ _).2 (Or.inl h))
    · exact Or.inr ⟨pre, c, rest, rfl, (boardishAt_iff _ _).2 (Or.inl h)⟩
    · exact Or.inl ((boardishAt_iff _ _).2 (Or.inr (Or.inl h)))
    · exact Or.inr ⟨pre, c, rest, rfl, (boardishAt_iff _ _).2 (Or.inr (Or.inl h))⟩
    · exact Or.inl ((boardishAt_iff _ _).2 (Or.inr (Or.inr (Or.inl ⟨rfl, h⟩))))
    · exact Or.inr ⟨pre, c, rest, rfl, (boardishAt_iff _ _).2 (Or.inr (Or.inr (Or.inl ⟨hc, h⟩)))⟩
    · exact Or.inl ((boardishAt_iff _ _).2 (Or.inr (Or.inr (Or.inr h))))
    · exact Or.inr ⟨pre, c, rest, rfl, (boardishAt_iff _ _).2 (Or.inr (Or.inr (Or.inr h)))⟩

/-- C4 (amended): `isBoardish(text)` is true exactly when the text contains (1) a digit 1..8
with white space on each side, or (2) one of `#`, `*`, `|` with white space on each side, or
(3) a line beginning with 1 or 2 white-space characters, then 1 or 2 digits, then optional
white space and `|`, or (4) `+` or `-` with white space on each side; the text
`  3 | 4 | 5\n` is boardish and `Welcome to the game\n` is not. -/
theorem isBoardish_iff (t : List Char) :
    (isBoardish t = true ↔ BoardishPatterns t) ∧
    isBoardish "  3 | 4 | 5\n".toList = true ∧
    isBoardish "Welcome to the game\n".toList = false :=
  ⟨isBoardish_iff_patterns t, by decide, by decide⟩

/-- C4 as stated fails: the text `12|` is a line beginning with two digits followed by `|`,
and `isBoardish` rejects it; the text ` 12|`, whose line begins with a blank, is accepted. -/
theorem isBoardish_needs_leading_space :
    isBoardish "12|".toList = false ∧ isBoardish " 12|".toList = true := by
  decide


/-! ## The scan of `replace` -/

theorem prevAfter_nil (p : Option Char) : prevAfter p [] = p := rfl

theorem prevAfter_cons (p : Option Char) (a : Char) (l : List Char) :
    prevAfter p (a :: l) = prevAfter (some a) l := by
  cases l with
  | nil => rfl
  | cons b l =>
    unfold prevAfter
    rw [List.getLast?_cons_cons]
    cases h : (b :: l).getLast? with
    | none => simp at h
    | some c => rfl

theorem prevAfter_concat (p : Option Char) (l : List Char) (c : Char) :
    prevAfter p (l ++ [c]) = some c := by
  simp [prevAfter]

theorem replaceFrom_skip (re : Regex) (repl : Captures → List Char) (m rest : List Char)
    (p : Option Char) :
    replaceFrom re repl m.length p (m ++ rest) = replaceFrom re repl 0 (prevAfter p m) rest := by
  induction m generalizing p with
  | nil => rfl
  | cons a m ih =>
    rw [prevAfter_cons, ← ih]
    simp [replaceFrom]

theorem replaceFrom_none (re : Regex) (repl : Captures → List Char) (p : Option Char)
    (c : Char) (rest : List Char) (h : re p (c :: rest) = none) :
    replaceFrom re repl 0 p (c :: rest) = c :: replaceFrom re repl 0 (some c) rest := by
  simp [replaceFrom, h]

theorem replaceFrom_some (re : Regex) (repl : Captures → List Char) (p : Option Char)
    (c : Char) (m rest : List Char) (caps : Captures)
    (h : re p (c :: (m ++ rest)) = some caps) (hcaps : caps.headD [] = c :: m) :
    replaceFrom re repl 0 p (c :: (m ++ rest)) =
      repl caps ++ replaceFrom re repl 0 (prevAfter (some c) m) rest := by
  rw [← replaceFrom_skip]
  simp only [replaceFrom, h, hcaps, List.length_cons]

/-! ## The first substitution -/

theorem numRe_prev (p q : Option Char) (l : List Char) : numRe p l = numRe q l := rfl

theorem colorNumbers_prev (k : Nat) (p q : Option Char) (l : List Char) :
    replaceFrom numRe numRepl k p l = replaceFrom numRe numRepl k q l := by
  induction l generalizing k p q with
  | nil => cases k <;> simp [replaceFrom, numRe]
  | cons c rest ih =>
    cases k with
    | zero => simp [replaceFrom, numRe_prev p q]
    | succ k => simp [replaceFrom]

theorem colorNumbers_match (p q : Option Char) (a d b : Char) (rest : List Char)
    (ha : isSpace a = true) (hd : isDigit18 d = true) (hb : isSpace b = true) :
    replaceFrom numRe numRepl 0 p (a :: d :: b :: rest) =
      a :: (numTag d ++ b :: replaceFrom numRe numRepl 0 q rest) := by
  have h : numRe p (a :: ([d, b] ++ rest)) = some [[a, d, b], [a], [d], [b]] := by
    simp [numRe, ha, hd, hb]
  have h2 := replaceFrom_some numRe numRepl p a [d, b] rest _ h rfl
  simp only [List.cons_append, List.nil_append] at h2
  rw [h2, colorNumbers_prev 0 _ q]
  simp [numRepl, numTag]

theorem colorNumbers_nomatch (p q : Option Char) (c : Char) (rest : List Char)
    (h : numRe none (c :: rest) = none) :
    replaceFrom numRe numRepl 0 p (c :: rest) = c :: replaceFrom numRe numRepl 0 q rest := by
  rw [replaceFrom_none numRe numRepl p c rest h, colorNumbers_prev 0 _ q]

theorem colorNumbers_nil (p : Option Char) : replaceFrom numRe numRepl 0 p [] = [] := by
  simp [replaceFrom, numRe]

theorem numRe_eq_some (l : List Char) (caps : Captures) (h : numRe none l = some caps) :
    ∃ a d b rest, l = a :: d :: b :: rest ∧ isSpace a = true ∧ isDigit18 d = true ∧
      isSpace b = true := by
  match l, h with
  | [], h => simp [numRe] at h
  | [_], h => simp [numRe] at h
  | [_, _], h => simp [numRe] at h
  | a :: d :: b :: rest, h =>
    by_cases hc : (isSpace a && isDigit18 d && isSpace b) = true
    · simp only [Bool.and_eq_true] at hc
      exact ⟨a, d, b, rest, rfl, hc.1.1, hc.1.2, hc.2⟩
    · simp [numRe, hc] at h


/-! ## Character classes -/

theorem isSpace_not_isDigit (c : Char) (h : isSpace c = true) : isDigit c = false := by
  simp only [isSpace, Bool.or_eq_true, Bool.and_eq_true, beq_iff_eq, decide_eq_true_eq] at h
  simp only [isDigit, Bool.and_eq_false_iff, decide_eq_false_iff_not]
  omega

theorem isDigit_not_isSpace (c : Char) (h : isDigit c = true) : isSpace c = false := by
  cases hs : isSpace c with
  | false => rfl
  | true => rw [isSpace_not_isDigit c hs] at h; exact absurd h (by decide)

theorem isDigit18_isDigit (c : Char) (h : isDigit18 c = true) : isDigit c = true := by
  simp only [isDigit18, isDigit, Bool.and_eq_true, decide_eq_true_eq] at h ⊢
  omega

theorem isSpace_not_isDigit18 (c : Char) (h : isSpace c = true) : isDigit18 c = false := by
  cases hd : isDigit18 c with
  | false => rfl
  | true =>
    have h1 := isDigit18_isDigit c hd
    rw [isSpace_not_isDigit c h] at h1
    exact absurd h1 (by decide)

theorem isLineTerminator_isSpace (c : Char) (h : isLineTerminator c = true) :
    isSpace c = true := by
  simp only [isLineTerminator, Bool.or_eq_true, beq_iff_eq] at h
  simp only [isSpace, Bool.or_eq_true, Bool.and_eq_true, beq_iff_eq, decide_eq_true_eq]
  omega

theorem isDigit_not_isLineTerminator (c : Char) (h : isDigit c = true) :
    isLineTerminator c = false := by
  cases hl : isLineTerminator c with
  | false => rfl
  | true =>
    rw [isSpace_not_isDigit c (isLineTerminator_isSpace c hl)] at h
    exact absurd h (by decide)

theorem isDigit_ne_bar (c : Char) (h : isDigit c = true) : c ≠ '|' := by
  rintro rfl
  revert h
  decide

theorem isSpace_not_markup (c : Char) (h : isSpace c = true) : c ≠ '<' ∧ c ≠ '>' := by
  constructor <;> (rintro rfl; revert h; decide)

theorem isDigit_not_markup (c : Char) (h : isDigit c = true) : c ≠ '<' ∧ c ≠ '>' := by
  constructor <;> (rintro rfl; revert h; decide)

theorem escapeChar_of_isSpace (c : Char) (h : isSpace c = true) : escapeChar c = [c] := by
  have h1 : c ≠ '&' := by rintro rfl; revert h; decide
  have h2 := isSpace_not_markup c h
  simp [escapeChar, h1, h2.1, h2.2]

theorem escapeChar_of_isDigit (c : Char) (h : isDigit c = true) : escapeChar c = [c] := by
  have h1 : c ≠ '&' := by rintro rfl; revert h; decide
  have h2 := isDigit_not_markup c h
  simp [escapeChar, h1, h2.1, h2.2]

/-! ## The lookahead and the digits -/

theorem barAhead_of_isDigit (c : Char) (rest : List Char) (h : isDigit c = true) :
    barAhead (c :: rest) = false := by
  simp [barAhead, isDigit_not_isSpace c h, isDigit_ne_bar c h]

theorem barAhead_append_spaces (ws tail : List Char) (hws : ∀ c ∈ ws, isSpace c = true) :
    barAhead (ws ++ tail) = barAhead tail := by
  induction ws with
  | nil => rfl
  | cons w ws ih =>
    have hw : isSpace w = true := hws w (by simp)
    have hne : w ≠ '|' := isSpace_ne_bar w hw
    simp [barAhead, hw, hne, ih (fun c hc => hws c (by simp [hc]))]

theorem barAhead_append_of_true (l tail : List Char) (h : barAhead l = true) :
    barAhead (l ++ tail) = true := by
  obtain ⟨ws, post, rfl, hws⟩ := (barAhead_iff l).1 h
  rw [List.append_assoc]
  exact barAhead_append ws (post ++ tail) hws

theorem digitsBar_of_isSpace (c : Char) (rest : List Char) (h : isSpace c = true) :
    digitsBar (c :: rest) = none := by
  simp [digitsBar, isSpace_not_isDigit c h]

theorem digitsBar_of (ds tail : List Char) (hlen : ds.length = 1 ∨ ds.length = 2)
    (hds : ∀ c ∈ ds, isDigit c = true) (htail : barAhead tail = true) :
    digitsBar (ds ++ tail) = some ds := by
  match ds, hlen, hds with
  | [d1], _, hds =>
    have hd : isDigit d1 = true := hds d1 (by simp)
    match tail, htail with
    | [], htail => simp [barAhead] at htail
    | t :: tail2, htail =>
      have ht : isDigit t = false := by
        cases hdt : isDigit t with
        | false => rfl
        | true => rw [barAhead_of_isDigit t tail2 hdt] at htail; exact absurd htail (by decide)
      simp [digitsBar, hd, ht, htail]
  | [d1, d2], _, hds =>
    have hd1 : isDigit d1 = true := hds d1 (by simp)
    have hd2 : isDigit d2 = true := hds d2 (by simp)
    simp [digitsBar, hd1, hd2, htail]
  | [], hlen, _ => simp at hlen
  | _ :: _ :: _ :: _, hlen, _ => simp at hlen

theorem spacesDigitsBar_of_isSpace (c : Char) (rest : List Char) (h : isSpace c = true) :
    spacesDigitsBar (c :: rest) =
      (spacesDigitsBar rest).map (fun m => (c :: m.1, m.2)) := by
  rw [spacesDigitsBar]
  simp only [h, if_true, digitsBar_of_isSpace c rest h, Option.map_none']
  cases spacesDigitsBar rest with
  | none => rfl
  | some m => rfl

theorem spacesDigitsBar_of_not_isSpace (c : Char) (rest : List Char) (h : isSpace c = false) :
    spacesDigitsBar (c :: rest) = (digitsBar (c :: rest)).map (fun num => ([], num)) := by
  rw [spacesDigitsBar]
  simp [h]

theorem spacesDigitsBar_eq_some (l sp ds : List Char) (h : spacesDigitsBar l = some (sp, ds)) :
    ∃ rest, l = sp ++ ds ++ rest ∧ (∀ c ∈ sp, isSpace c = true) ∧
      (ds.length = 1 ∨ ds.length = 2) ∧ (∀ c ∈ ds, isDigit c = true) ∧
      barAhead rest = true := by
  induction l generalizing sp ds with
  | nil => simp [spacesDigitsBar] at h
  | cons c rest ih =>
    cases hc : isSpace c with
    | true =>
      rw [spacesDigitsBar_of_isSpace c rest hc] at h
      cases hr : spacesDigitsBar rest with
      | none => simp [hr] at h
      | some m =>
        obtain ⟨sp2, ds2⟩ := m
        simp only [hr, Option.map_some', Option.some.injEq, Prod.mk.injEq] at h
        obtain ⟨rfl, rfl⟩ := h
        obtain ⟨tail, rfl, hsp, hlen, hds, hbar⟩ := ih sp2 ds2 hr
        refine ⟨tail, by simp, ?_, hlen, hds, hbar⟩
        intro x hx
        rcases List.mem_cons.1 hx with rfl | hx
        · exact hc
        · exact hsp x hx
    | false =>
      rw [spacesDigitsBar_of_not_isSpace c rest hc] at h
      cases hr : digitsBar (c :: rest) with
      | none => simp [hr] at h
      | some ds2 =>
        simp only [hr, Option.map_some', Option.some.injEq, Prod.mk.injEq] at h
        obtain ⟨rfl, rfl⟩ := h
        obtain ⟨tail, htail, hlen, hds, hbar⟩ := digitsBar_eq_some _ _ hr
        exact ⟨tail, by simpa using htail, by simp, hlen, hds, hbar⟩

theorem spacesDigitsBar_of (sp ds tail : List Char) (hsp : ∀ c ∈ sp, isSpace c = true)
    (hlen : ds.length = 1 ∨ ds.length = 2) (hds : ∀ c ∈ ds, isDigit c = true)
    (htail : barAhead tail = true) :
    spacesDigitsBar (sp ++ ds ++ tail) = some (sp, ds) := by
  induction sp with
  | nil =>
    match ds, hlen, hds with
    | d1 :: ds2, hlen, hds =>
      have hd : isDigit d1 = true := hds d1 (by simp)
      have h := digitsBar_of (d1 :: ds2) tail hlen hds htail
      simp only [List.nil_append, List.cons_append] at h ⊢
      rw [spacesDigitsBar_of_not_isSpace d1 _ (isDigit_not_isSpace d1 hd), h]
      rfl
    | [], hlen, _ => simp at hlen
  | cons s sp ih =>
    have hs : isSpace s = true := hsp s (by simp)
    simp only [List.cons_append]
    rw [spacesDigitsBar_of_isSpace s _ hs]
    have h := ih (fun c hc => hsp c (by simp [hc]))
    simp only [List.append_assoc] at h ⊢
    rw [h]
    rfl


/-! ## The second substitution -/

theorem labelRe_nil (p : Option Char) : labelRe p [] = none := by
  simp [labelRe]

theorem labelRe_of_not_lineStart (p : Option Char) (l : List Char)
    (h : lineStart p = false) : labelRe p l = none := by
  simp [labelRe, h]

theorem labelRe_of_not_isSpace (p : Option Char) (c : Char) (rest : List Char)
    (h : isSpace c = false) : labelRe p (c :: rest) = none := by
  simp [labelRe, h]

theorem labelRe_of_none (p : Option Char) (c : Char) (rest : List Char)
    (h : spacesDigitsBar rest = none) : labelRe p (c :: rest) = none := by
  simp [labelRe, h]

theorem labelRe_of_some (p : Option Char) (c : Char) (rest sp ds : List Char)
    (hp : lineStart p = true) (hc : isSpace c = true)
    (h : spacesDigitsBar rest = some (sp, ds)) :
    labelRe p (c :: rest) = some [c :: sp ++ ds, c :: sp, ds] := by
  simp [labelRe, hp, hc, h]

theorem labelRe_eq_some (p : Option Char) (l : List Char) (caps : Captures)
    (h : labelRe p l = some caps) :
    ∃ c rest sp ds, l = c :: rest ∧ lineStart p = true ∧ isSpace c = true ∧
      spacesDigitsBar rest = some (sp, ds) ∧ caps = [c :: sp ++ ds, c :: sp, ds] := by
  cases hp : lineStart p with
  | false => rw [labelRe_of_not_lineStart p l hp] at h; exact absurd h (by simp)
  | true =>
    match l, h with
    | [], h => rw [labelRe_nil] at h; exact absurd h (by simp)
    | c :: rest, h =>
      cases hc : isSpace c with
      | false => rw [labelRe_of_not_isSpace p c rest hc] at h; exact absurd h (by simp)
      | true =>
        cases hr : spacesDigitsBar rest with
        | none => rw [labelRe_of_none p c rest hr] at h; exact absurd h (by simp)
        | some m =>
          obtain ⟨sp, ds⟩ := m
          rw [labelRe_of_some p c rest sp ds hp hc hr] at h
          simp only [Option.some.injEq] at h
          exact ⟨c, rest, sp, ds, rfl, rfl, hc, hr, h.symm⟩

theorem colorLabels_nil (p : Option Char) : replaceFrom labelRe labelRepl 0 p [] = [] := by
  simp [replaceFrom, labelRe_nil]

theorem colorLabels_match (p : Option Char) (c : Char) (sp ds tail : List Char)
    (hp : lineStart p = true) (hc : isSpace c = true)
    (h : spacesDigitsBar (sp ++ ds ++ tail) = some (sp, ds)) :
    replaceFrom labelRe labelRepl 0 p (c :: (sp ++ ds ++ tail)) =
      c :: sp ++ labelTag ds ++
        replaceFrom labelRe labelRepl 0 (prevAfter (some c) (sp ++ ds)) tail := by
  have h1 := labelRe_of_some p c _ sp ds hp hc h
  have h2 := replaceFrom_some labelRe labelRepl p c (sp ++ ds) tail _ h1 rfl
  rw [h2]
  simp [labelRepl, labelTag]

theorem colorLabels_copy (c0 : Char) (copied tail : List Char)
    (h0 : isLineTerminator c0 = false) (h : ∀ c ∈ copied, isLineTerminator c = false) :
    replaceFrom labelRe labelRepl 0 (some c0) (copied ++ tail) =
      copied ++ replaceFrom labelRe labelRepl 0 (prevAfter (some c0) copied) tail := by
  induction copied generalizing c0 with
  | nil => rfl
  | cons a l ih =>
    rw [List.cons_append, replaceFrom_none labelRe labelRepl _ a _
      (labelRe_of_not_lineStart _ _ (by simpa [lineStart] using h0)),
      ih a (h a (by simp)) (fun c hc => h c (by simp [hc])), prevAfter_cons]
    rfl

theorem colorLabels_numTag (p : Option Char) (d : Char) (tail : List Char)
    (hd : isDigit18 d = true) :
    ∃ q, replaceFrom labelRe labelRepl 0 p (numTag d ++ tail) =
      numTag d ++ replaceFrom labelRe labelRepl 0 q tail := by
  have hlt : isLineTerminator d = false :=
    isDigit_not_isLineTerminator d (isDigit18_isDigit d hd)
  have hform : numTag d = '<' :: ("span class=\"num".toList ++ [d] ++ "\">".toList ++ [d] ++
      "</span>".toList) := rfl
  rw [hform, List.cons_append,
    replaceFrom_none labelRe labelRepl p '<' _ (labelRe_of_not_isSpace p '<' _ (by decide)),
    colorLabels_copy '<' _ tail (by decide)]
  · exact ⟨_, rfl⟩
  · intro c hc
    simp only [List.mem_append, List.mem_singleton] at hc
    rcases hc with (((hc | rfl) | hc) | rfl) | hc
    · revert c; decide
    · exact hlt
    · revert c; decide
    · exact hlt
    · revert c; decide

/-! ## The rendered output is made of pieces -/

theorem flatMap_text_plain (l : List Char) : (l.map Piece.plain).flatMap Piece.text = l := by
  induction l with
  | nil => rfl
  | cons a l ih => simp [List.flatMap_cons, Piece.text, ih]

theorem flatMap_html_plain (l : List Char) : (l.map Piece.plain).flatMap Piece.html = l := by
  induction l with
  | nil => rfl
  | cons a l ih => simp [List.flatMap_cons, Piece.html, ih]

theorem numTag_head (d : Char) : ∃ t, numTag d = '<' :: t := ⟨_, rfl⟩

theorem labelTag_head (ds : List Char) : ∃ t, labelTag ds = '<' :: t := ⟨_, rfl⟩

theorem pieces_split (ps : List Piece) (m tail : List Char)
    (h : ps.flatMap Piece.html = m ++ tail) (hm : ∀ c ∈ m, c ≠ '<') :
    ∃ qs, ps = m.map Piece.plain ++ qs ∧ tail = qs.flatMap Piece.html := by
  induction m generalizing ps with
  | nil => exact ⟨ps, rfl, by simpa using h.symm⟩
  | cons a m ih =>
    have ha : a ≠ '<' := hm a (by simp)
    cases ps with
    | nil => simp at h
    | cons q qs =>
      cases q with
      | plain c =>
        simp only [List.flatMap_cons, Piece.html, List.cons_append, List.nil_append,
          List.cons.injEq] at h
        obtain ⟨hca, h2⟩ := h
        subst hca
        obtain ⟨rs, hqs, hrs⟩ := ih qs h2 (fun x hx => hm x (by simp [hx]))
        exact ⟨rs, by simp [hqs], hrs⟩
      | num d =>
        obtain ⟨t, ht⟩ := numTag_head d
        simp only [List.flatMap_cons, Piece.html, ht, List.cons_append, List.cons.injEq] at h
        exact absurd h.1.symm ha
      | label ds =>
        obtain ⟨t, ht⟩ := labelTag_head ds
        simp only [List.flatMap_cons, Piece.html, ht, List.cons_append, List.cons.injEq] at h
        exact absurd h.1.symm ha


theorem colorNumbers_pieces (n : Nat) :
    ∀ e : List Char, e.length ≤ n → (∀ c ∈ e, c ≠ '<' ∧ c ≠ '>') →
      ∃ ps : List Piece, (∀ q ∈ ps, q.WellFormed) ∧ (∀ q ∈ ps, ∀ ds, q ≠ Piece.label ds) ∧
        replaceFrom numRe numRepl 0 none e = ps.flatMap Piece.html ∧
        e = ps.flatMap Piece.text := by
  induction n with
  | zero =>
    intro e he _
    have : e = [] := List.length_eq_zero.1 (Nat.le_zero.1 he)
    subst this
    exact ⟨[], by simp, by simp, colorNumbers_nil none, rfl⟩
  | succ n ih =>
    intro e he hsafe
    cases e with
    | nil => exact ⟨[], by simp, by simp, colorNumbers_nil none, rfl⟩
    | cons a rest =>
      cases hm : numRe none (a :: rest) with
      | none =>
        obtain ⟨ps, hwf, hnl, hhtml, htext⟩ :=
          ih rest (by simpa using he) (fun c hc => hsafe c (by simp [hc]))
        refine ⟨Piece.plain a :: ps, ?_, ?_, ?_, ?_⟩
        · intro q hq
          rcases List.mem_cons.1 hq with rfl | hq
          · exact hsafe a (by simp)
          · exact hwf q hq
        · intro q hq ds
          rcases List.mem_cons.1 hq with rfl | hq
          · simp
          · exact hnl q hq ds
        · rw [colorNumbers_nomatch none none a rest hm, hhtml]
          simp [List.flatMap_cons, Piece.html]
        · rw [List.flatMap_cons, ← htext]
          rfl
      | some caps =>
        obtain ⟨a2, d, b, tail, heq, ha, hd, hb⟩ := numRe_eq_some _ _ hm
        simp only [List.cons.injEq] at heq
        obtain ⟨rfl, rfl⟩ := heq
        obtain ⟨ps, hwf, hnl, hhtml, htext⟩ :=
          ih tail (by simp at he; omega) (fun c hc => hsafe c (by simp [hc]))
        refine ⟨Piece.plain a :: Piece.num d :: Piece.plain b :: ps, ?_, ?_, ?_, ?_⟩
        · intro q hq
          simp only [List.mem_cons] at hq
          rcases hq with rfl | rfl | rfl | hq
          · exact hsafe a (by simp)
          · exact hd
          · exact hsafe b (by simp)
          · exact hwf q hq
        · intro q hq ds
          simp only [List.mem_cons] at hq
          rcases hq with rfl | rfl | rfl | hq
          · simp
          · simp
          · simp
          · exact hnl q hq ds
        · rw [colorNumbers_match none none a d b tail ha hd hb, hhtml]
          simp [List.flatMap_cons, Piece.html]
        · simp only [List.flatMap_cons, ← htext]
          rfl

theorem colorLabels_pieces (n : Nat) :
    ∀ (ps : List Piece) (p : Option Char), ps.length ≤ n → (∀ q ∈ ps, q.WellFormed) →
      (∀ q ∈ ps, ∀ ds, q ≠ Piece.label ds) →
      ∃ rs : List Piece, (∀ q ∈ rs, q.WellFormed) ∧
        replaceFrom labelRe labelRepl 0 p (ps.flatMap Piece.html) = rs.flatMap Piece.html ∧
        rs.flatMap Piece.text = ps.flatMap Piece.text := by
  induction n with
  | zero =>
    intro ps p hlen _ _
    have : ps = [] := List.length_eq_zero.1 (Nat.le_zero.1 hlen)
    subst this
    exact ⟨[], by simp, colorLabels_nil p, rfl⟩
  | succ n ih =>
    intro ps p hlen hwf hnl
    cases ps with
    | nil => exact ⟨[], by simp, colorLabels_nil p, rfl⟩
    | cons q qs =>
      have hwfq : ∀ r ∈ qs, r.WellFormed := fun r hr => hwf r (by simp [hr])
      have hnlq : ∀ r ∈ qs, ∀ ds, r ≠ Piece.label ds := fun r hr => hnl r (by simp [hr])
      have hlenq : qs.length ≤ n := by simpa using hlen
      cases q with
      | label ds => exact absurd rfl (hnl (Piece.label ds) (by simp) ds)
      | num d =>
        have hd : isDigit18 d = true := hwf (Piece.num d) (by simp)
        obtain ⟨p2, hcopy⟩ := colorLabels_numTag p d (qs.flatMap Piece.html) hd
        obtain ⟨rs, hrwf, hhtml, htext⟩ := ih qs p2 hlenq hwfq hnlq
        refine ⟨Piece.num d :: rs, ?_, ?_, ?_⟩
        · intro r hr
          rcases List.mem_cons.1 hr with rfl | hr
          · exact hd
          · exact hrwf r hr
        · simp only [List.flatMap_cons, Piece.html]
          rw [hcopy, hhtml]
        · simp only [List.flatMap_cons, htext]
      | plain c =>
        have hc : c ≠ '<' ∧ c ≠ '>' := hwf (Piece.plain c) (by simp)
        have hcons : (Piece.plain c :: qs).flatMap Piece.html = c :: qs.flatMap Piece.html := by
          simp [List.flatMap_cons, Piece.html]
        rw [hcons]
        cases hm : labelRe p (c :: qs.flatMap Piece.html) with
        | none =>
          obtain ⟨rs, hrwf, hhtml, htext⟩ := ih qs (some c) hlenq hwfq hnlq
          refine ⟨Piece.plain c :: rs, ?_, ?_, ?_⟩
          · intro r hr
            rcases List.mem_cons.1 hr with rfl | hr
            · exact hc
            · exact hrwf r hr
          · rw [replaceFrom_none labelRe labelRepl p c _ hm, hhtml]
            simp [List.flatMap_cons, Piece.html]
          · simp only [List.flatMap_cons, htext]
        | some caps =>
          obtain ⟨c2, rest, sp, ds, heq, hp, hsc, hsdb, _⟩ := labelRe_eq_some _ _ _ hm
          simp only [List.cons.injEq] at heq
          obtain ⟨rfl, hrest⟩ := heq
          subst hrest
          obtain ⟨tail, htail, hsp, hdlen, hds, _⟩ := spacesDigitsBar_eq_some _ _ _ hsdb
          have hnolt : ∀ x ∈ sp ++ ds, x ≠ '<' := by
            intro x hx
            rcases List.mem_append.1 hx with hx | hx
            · exact (isSpace_not_markup x (hsp x hx)).1
            · exact (isDigit_not_markup x (hds x hx)).1
          obtain ⟨ts, hqs, hts⟩ := pieces_split qs (sp ++ ds) tail htail hnolt
          have hlt : ts.length ≤ n := by
            have : qs.length = (sp ++ ds).length + ts.length := by
              rw [hqs]; simp [Nat.add_assoc]
            omega
          have hwft : ∀ r ∈ ts, r.WellFormed := fun r hr => hwfq r (by rw [hqs]; simp [hr])
          have hnlt : ∀ r ∈ ts, ∀ ds, r ≠ Piece.label ds :=
            fun r hr => hnlq r (by rw [hqs]; simp [hr])
          obtain ⟨rs, hrwf, hhtml, htext⟩ :=
            ih ts (prevAfter (some c) (sp ++ ds)) hlt hwft hnlt
          refine ⟨Piece.plain c :: (sp.map Piece.plain ++ Piece.label ds :: rs), ?_, ?_, ?_⟩
          · intro r hr
            simp only [List.mem_cons, List.mem_append, List.mem_map] at hr
            rcases hr with rfl | ⟨x, hx, rfl⟩ | rfl | hr
            · exact hc
            · exact isSpace_not_markup x (hsp x hx)
            · exact ⟨hdlen, hds⟩
            · exact hrwf r hr
          · rw [htail] at hsdb ⊢
            rw [colorLabels_match p c sp ds tail hp hsc hsdb, hts, hhtml]
            simp [List.flatMap_cons, List.flatMap_append, Piece.html, flatMap_html_plain]
          · rw [hqs]
            simp [List.flatMap_cons, List.flatMap_append, Piece.text, flatMap_text_plain, htext]

/-- C1: for every text the HTML that `writeTo` appends is a sequence of pieces, each either
a character of the escaped text that is neither `<` nor `>`, or one digit 1..8 inside
`<span class="numD">`..`</span>`, or 1 or 2 digits inside `<span class="label">`..`</span>`;
so the tags are balanced and never nested, and deleting them yields `escapeHtml(text)`. -/
theorem renderHtml_pieces (text : List Char) :
    ∃ ps : List Piece, (∀ q ∈ ps, q.WellFormed) ∧
      renderHtml text = ps.flatMap Piece.html ∧
      escapeHtml text = ps.flatMap Piece.text := by
  unfold renderHtml
  by_cases hb : isBoardish text = true
  · rw [if_pos hb]
    obtain ⟨ps, hwf, hnl, hhtml, htext⟩ :=
      colorNumbers_pieces (escapeHtml text).length (escapeHtml text) (Nat.le_refl _)
        (fun c hc => escapeHtml_no_markup text c hc)
    obtain ⟨rs, hrwf, hrhtml, hrtext⟩ :=
      colorLabels_pieces ps.length ps none (Nat.le_refl _) hwf hnl
    refine ⟨rs, hrwf, ?_, ?_⟩
    · unfold decorateBoardText replaceG
      rw [hhtml, hrhtml]
    · rw [hrtext, ← htext]
  · rw [if_neg hb]
    refine ⟨(escapeHtml text).map Piece.plain, ?_, (flatMap_html_plain _).symm,
      (flatMap_text_plain _).symm⟩
    intro q hq
    obtain ⟨c, hc, rfl⟩ := List.mem_map.1 hq
    exact escapeHtml_no_markup text c hc


/-! ## Row labels: how the second substitution splits at a label -/

theorem atLineStart_iff (pre : List Char) : AtLineStart pre ↔ lineStart pre.getLast? = true := by
  constructor
  · rintro (rfl | ⟨p, c, rfl, hc⟩)
    · rfl
    · simpa [lineStart] using hc
  · intro h
    rcases List.eq_nil_or_concat pre with rfl | ⟨p, c, rfl⟩
    · exact Or.inl rfl
    · right
      refine ⟨p, c, by simp, ?_⟩
      simpa [lineStart] using h

theorem lineStart_getLast_tail (x : Char) (l : List Char)
    (h : lineStart (x :: l).getLast? = true) (hl : l ≠ []) : lineStart l.getLast? = true := by
  cases l with
  | nil => exact absurd rfl hl
  | cons y l => rwa [List.getLast?_cons_cons] at h

theorem lineStart_getLast_suffix (a b : List Char)
    (h : lineStart (a ++ b).getLast? = true) (hb : b ≠ []) : lineStart b.getLast? = true := by
  rw [List.getLast?_append] at h
  cases hl : b.getLast? with
  | none => exact absurd (List.getLast?_eq_none_iff.1 hl) hb
  | some c => simpa [hl] using h

theorem not_lineStart_getLast_digits (a ds : List Char) (hne : ds ≠ [])
    (hds : ∀ c ∈ ds, isDigit c = true) : lineStart (a ++ ds).getLast? = false := by
  rcases List.eq_nil_or_concat ds with rfl | ⟨l, d, rfl⟩
  · exact absurd rfl hne
  · have hd : isDigit d = true := hds d (by simp)
    simp [lineStart, ← List.append_assoc, isDigit_not_isLineTerminator d hd]

theorem prevAfter_append_digits (p : Option Char) (a ds : List Char) (hne : ds ≠ []) :
    prevAfter p (a ++ ds) = prevAfter none ds := by
  rcases List.eq_nil_or_concat ds with rfl | ⟨l, d, rfl⟩
  · exact absurd rfl hne
  · simp [prevAfter, ← List.append_assoc]

theorem barAhead_append_of_false (l tail : List Char) (h : barAhead tail = false) :
    barAhead (l ++ tail) = barAhead l := by
  induction l with
  | nil => simpa [barAhead] using h
  | cons c l ih => simp [barAhead, ih]

theorem barAhead_label (sp ds tail : List Char) (hsp : ∀ c ∈ sp, isSpace c = true)
    (hne : ds ≠ []) (hds : ∀ c ∈ ds, isDigit c = true) :
    barAhead (sp ++ ds ++ tail) = false := by
  cases ds with
  | nil => exact absurd rfl hne
  | cons d ds =>
    rw [List.append_assoc, barAhead_append_spaces sp _ hsp]
    exact barAhead_of_isDigit d _ (hds d (by simp))

theorem digitsBar_append_of_false (l tail : List Char) (h : barAhead tail = false)
    (hl : ∀ c, l.getLast? = some c → isDigit c = false) (hne : l ≠ []) :
    digitsBar (l ++ tail) = digitsBar l := by
  match l, hl, hne with
  | [], _, hne => exact absurd rfl hne
  | [z], hl, _ =>
    have hz : isDigit z = false := hl z rfl
    cases tail <;> simp [digitsBar, hz]
  | d1 :: d2 :: rest2, _, _ =>
    have h1 := barAhead_append_of_false rest2 tail h
    have h2 := barAhead_append_of_false (d2 :: rest2) tail h
    simp only [List.cons_append] at h2 ⊢
    simp only [digitsBar, h1, h2]

theorem spacesDigitsBar_all_spaces (l : List Char) (h : ∀ c ∈ l, isSpace c = true) :
    spacesDigitsBar l = none := by
  induction l with
  | nil => rfl
  | cons c l ih =>
    rw [spacesDigitsBar_of_isSpace c l (h c (by simp)), ih (fun x hx => h x (by simp [hx]))]
    rfl

theorem spacesDigitsBar_spaces_bar (ws tail : List Char) (h : ∀ c ∈ ws, isSpace c = true) :
    spacesDigitsBar (ws ++ '|' :: tail) = none := by
  induction ws with
  | nil =>
    have hbar : isDigit '|' = false := by decide
    rw [List.nil_append, spacesDigitsBar_of_not_isSpace '|' tail (by decide)]
    simp [digitsBar, hbar]
  | cons c l ih =>
    rw [List.cons_append, spacesDigitsBar_of_isSpace c _ (h c (by simp)),
      ih (fun x hx => h x (by simp [hx]))]
    rfl

theorem colorLabels_all_spaces (p : Option Char) (l : List Char)
    (h : ∀ c ∈ l, isSpace c = true) : replaceFrom labelRe labelRepl 0 p l = l := by
  induction l generalizing p with
  | nil => exact colorLabels_nil p
  | cons c l ih =>
    have hl : ∀ x ∈ l, isSpace x = true := fun x hx => h x (by simp [hx])
    rw [replaceFrom_none labelRe labelRepl p c l
      (labelRe_of_none p c l (spacesDigitsBar_all_spaces l hl)), ih (some c) hl]

theorem colorLabels_spaces_bar (p : Option Char) (ws tail : List Char)
    (h : ∀ c ∈ ws, isSpace c = true) :
    replaceFrom labelRe labelRepl 0 p (ws ++ '|' :: tail) =
      ws ++ '|' :: replaceFrom labelRe labelRepl 0 (some '|') tail := by
  induction ws generalizing p with
  | nil =>
    rw [List.nil_append, replaceFrom_none labelRe labelRepl p '|' tail
      (labelRe_of_not_isSpace p '|' tail (by decide))]
    rfl
  | cons c l ih =>
    have hl : ∀ x ∈ l, isSpace x = true := fun x hx => h x (by simp [hx])
    rw [List.cons_append, replaceFrom_none labelRe labelRepl p c _
      (labelRe_of_none p c _ (spacesDigitsBar_spaces_bar l tail hl)), ih (some c) hl]
    rfl

theorem spacesDigitsBar_append_label (a sp ds tail : List Char)
    (ha : lineStart a.getLast? = true) (hsp : ∀ c ∈ sp, isSpace c = true)
    (hlen : ds.length = 1 ∨ ds.length = 2) (hds : ∀ c ∈ ds, isDigit c = true)
    (htail : barAhead tail = true) :
    spacesDigitsBar (a ++ (sp ++ ds ++ tail)) =
      match spacesDigitsBar a with
      | some r => some r
      | none => if a.all isSpace = true then some (a ++ sp, ds) else none := by
  have hne : ds ≠ [] := by
    rintro rfl
    simp at hlen
  induction a with
  | nil =>
    simp only [List.nil_append, List.all_nil, if_true]
    rw [spacesDigitsBar_of sp ds tail hsp hlen hds htail]
    rfl
  | cons x a ih =>
    have ha2 : lineStart a.getLast? = true := by
      cases a with
      | nil => rfl
      | cons y a => exact lineStart_getLast_tail x _ ha (by simp)
    have ih2 := ih ha2
    cases hx : isSpace x with
    | true =>
      rw [List.cons_append, spacesDigitsBar_of_isSpace x _ hx, ih2,
        spacesDigitsBar_of_isSpace x a hx]
      cases hr : spacesDigitsBar a with
      | some r => rfl
      | none =>
        by_cases hall : a.all isSpace = true
        · simp [hall, hx]
        · simp [hall, hx]
    | false =>
      have hlast : ∀ c, (x :: a).getLast? = some c → isDigit c = false := by
        intro c hc
        rw [hc] at ha
        cases hd : isDigit c with
        | false => rfl
        | true =>
          rw [show lineStart (some c) = isLineTerminator c from rfl,
            isDigit_not_isLineTerminator c hd] at ha
          exact absurd ha (by decide)
      rw [List.cons_append, spacesDigitsBar_of_not_isSpace x _ hx,
        ← List.cons_append, digitsBar_append_of_false (x :: a) _
          (barAhead_label sp ds tail hsp hne hds) hlast (by simp),
        spacesDigitsBar_of_not_isSpace x a hx]
      cases hr : digitsBar (x :: a) with
      | some r => rfl
      | none => simp [hx]


theorem colorLabels_append_label (sp ds tail : List Char) (hspne : sp ≠ [])
    (hsp : ∀ c ∈ sp, isSpace c = true) (hlen : ds.length = 1 ∨ ds.length = 2)
    (hds : ∀ c ∈ ds, isDigit c = true) (htail : barAhead tail = true) (n : Nat) :
    ∀ (h : List Char) (p : Option Char), h.length ≤ n → (h = [] → lineStart p = true) →
      lineStart h.getLast? = true →
      replaceFrom labelRe labelRepl 0 p (h ++ (sp ++ ds ++ tail)) =
        replaceFrom labelRe labelRepl 0 p h ++ sp ++ labelTag ds ++
          replaceFrom labelRe labelRepl 0 (prevAfter none ds) tail := by
  have hne : ds ≠ [] := by
    rintro rfl
    simp at hlen
  induction n with
  | zero =>
    intro h p hl hp _
    have hnil : h = [] := List.length_eq_zero.1 (Nat.le_zero.1 hl)
    subst hnil
    cases sp with
    | nil => exact absurd rfl hspne
    | cons s sp2 =>
      have hsdb := spacesDigitsBar_of sp2 ds tail (fun c hc => hsp c (by simp [hc])) hlen hds htail
      rw [List.nil_append, colorLabels_nil, List.nil_append]
      simp only [List.cons_append]
      rw [colorLabels_match p s sp2 ds tail (hp rfl) (hsp s (by simp)) hsdb,
        prevAfter_append_digits _ sp2 ds hne]
      simp
  | succ n ih =>
    intro h p hl hp hend
    cases h with
    | nil =>
      cases sp with
      | nil => exact absurd rfl hspne
      | cons s sp2 =>
        have hsdb :=
          spacesDigitsBar_of sp2 ds tail (fun c hc => hsp c (by simp [hc])) hlen hds htail
        rw [List.nil_append, colorLabels_nil, List.nil_append]
        simp only [List.cons_append]
        rw [colorLabels_match p s sp2 ds tail (hp rfl) (hsp s (by simp)) hsdb,
          prevAfter_append_digits _ sp2 ds hne]
        simp
    | cons c h2 =>
      have hend2 : lineStart h2.getLast? = true := by
        cases h2 with
        | nil => rfl
        | cons y h3 => exact lineStart_getLast_tail c _ hend (by simp)
      have hlen2 : h2.length ≤ n := by simpa using hl
      have hp2 : h2 = [] → lineStart (some c) = true := by
        intro he
        subst he
        simpa using hend
      have hcopy : labelRe p (c :: (h2 ++ (sp ++ ds ++ tail))) = none →
          labelRe p (c :: h2) = none →
          replaceFrom labelRe labelRepl 0 p (c :: h2 ++ (sp ++ ds ++ tail)) =
            replaceFrom labelRe labelRepl 0 p (c :: h2) ++ sp ++ labelTag ds ++
              replaceFrom labelRe labelRepl 0 (prevAfter none ds) tail := by
        intro h1 h2'
        rw [List.cons_append, replaceFrom_none labelRe labelRepl p c _ h1,
          replaceFrom_none labelRe labelRepl p c _ h2', ih h2 (some c) hlen2 hp2 hend2]
        simp
      cases hls : lineStart p with
      | false =>
        exact hcopy (labelRe_of_not_lineStart p _ hls) (labelRe_of_not_lineStart p _ hls)
      | true =>
        cases hc : isSpace c with
        | false =>
          exact hcopy (labelRe_of_not_isSpace p c _ hc) (labelRe_of_not_isSpace p c _ hc)
        | true =>
          have happ := spacesDigitsBar_append_label h2 sp ds tail hend2 hsp hlen hds htail
          cases hr : spacesDigitsBar h2 with
          | some r =>
            obtain ⟨s2, n2⟩ := r
            rw [hr] at happ
            obtain ⟨rest, hrest, _, hn2len, hn2, _⟩ := spacesDigitsBar_eq_some h2 s2 n2 hr
            have hn2ne : n2 ≠ [] := by
              rintro rfl
              simp at hn2len
            have hrne : rest ≠ [] := by
              rintro rfl
              rw [hrest, List.append_nil, not_lineStart_getLast_digits s2 n2 hn2ne hn2] at hend2
              exact absurd hend2 (by decide)
            have hendr : lineStart rest.getLast? = true := by
              rw [hrest] at hend2
              exact lineStart_getLast_suffix (s2 ++ n2) rest hend2 hrne
            have hlr : rest.length ≤ n := by
              have : h2.length = s2.length + n2.length + rest.length := by
                rw [hrest]; simp [Nat.add_assoc]
              omega
            have hih := ih rest (prevAfter (some c) (s2 ++ n2)) hlr
              (fun he => absurd he hrne) hendr
            have hr2 : spacesDigitsBar (s2 ++ n2 ++ rest) = some (s2, n2) := by
              rw [← hrest]; exact hr
            have happ2 : spacesDigitsBar (s2 ++ n2 ++ (rest ++ (sp ++ ds ++ tail))) =
                some (s2, n2) := by
              rw [← List.append_assoc, ← hrest]; exact happ
            have e1 : c :: h2 ++ (sp ++ ds ++ tail) =
                c :: (s2 ++ n2 ++ (rest ++ (sp ++ ds ++ tail))) := by
              rw [hrest]; simp
            have e2 : c :: h2 = c :: (s2 ++ n2 ++ rest) := by rw [hrest]
            rw [e1, e2, colorLabels_match p c s2 n2 _ hls hc happ2,
              colorLabels_match p c s2 n2 rest hls hc hr2, hih]
            simp
          | none =>
            rw [hr] at happ
            by_cases hall : h2.all isSpace = true
            · simp only [hall, if_true] at happ
              have hsall : ∀ x ∈ c :: h2, isSpace x = true := by
                intro x hx
                rcases List.mem_cons.1 hx with rfl | hx
                · exact hc
                · exact List.all_eq_true.1 hall x hx
              have happ2 : spacesDigitsBar (h2 ++ sp ++ ds ++ tail) = some (h2 ++ sp, ds) := by
                rw [← happ]; simp
              have e1 : c :: h2 ++ (sp ++ ds ++ tail) = c :: (h2 ++ sp ++ ds ++ tail) := by
                simp
              rw [e1, colorLabels_match p c (h2 ++ sp) ds tail hls hc happ2,
                colorLabels_all_spaces p (c :: h2) hsall,
                prevAfter_append_digits _ (h2 ++ sp) ds hne]
              simp
            · simp only [hall] at happ
              exact hcopy (labelRe_of_none p c _ happ) (labelRe_of_none p c _ hr)


/-! ## Row labels: how the first substitution splits at a label -/

theorem numRe_of_not_isSpace (a : Char) (rest : List Char) (h : isSpace a = false) :
    numRe none (a :: rest) = none := by
  match rest with
  | [] => rfl
  | [_] => rfl
  | d :: b :: tail => simp [numRe, h]

theorem numRe_of_second (a d : Char) (rest : List Char) (h : isDigit18 d = false) :
    numRe none (a :: d :: rest) = none := by
  match rest with
  | [] => rfl
  | b :: tail => simp [numRe, h]

theorem numRe_of_third (a d b : Char) (rest : List Char) (h : isSpace b = false) :
    numRe none (a :: d :: b :: rest) = none := by
  simp [numRe, h]

theorem numRe_append (a : Char) (rest tail : List Char)
    (hlast : ∀ c, (a :: rest).getLast? = some c → isDigit18 c = false)
    (hhead : ∀ c, tail.head? = some c → isDigit18 c = false) :
    numRe none (a :: rest ++ tail) = numRe none (a :: rest) := by
  match rest, hlast with
  | [], _ =>
    match tail, hhead with
    | [], _ => rfl
    | d :: tail2, hhead =>
      rw [show numRe none [a] = none from rfl]
      exact numRe_of_second a d tail2 (hhead d rfl)
  | [d], hlast =>
    rw [show numRe none [a, d] = none from rfl]
    exact numRe_of_second a d tail (hlast d rfl)
  | d :: b :: rest2, _ => rfl

theorem colorNumbers_append (n : Nat) :
    ∀ (a b : List Char), a.length ≤ n →
      (∀ c, a.getLast? = some c → isDigit18 c = false) →
      (∀ c, b.head? = some c → isDigit18 c = false) →
      replaceFrom numRe numRepl 0 none (a ++ b) =
        replaceFrom numRe numRepl 0 none a ++ replaceFrom numRe numRepl 0 none b := by
  induction n with
  | zero =>
    intro a b hl _ _
    have hnil : a = [] := List.length_eq_zero.1 (Nat.le_zero.1 hl)
    subst hnil
    rw [colorNumbers_nil]
    rfl
  | succ n ih =>
    intro a b hl hlast hhead
    cases a with
    | nil =>
      rw [colorNumbers_nil]
      rfl
    | cons x rest =>
      have happ := numRe_append x rest b hlast hhead
      cases hm : numRe none (x :: rest) with
      | none =>
        rw [hm] at happ
        have hlast2 : ∀ c, rest.getLast? = some c → isDigit18 c = false := by
          intro c hc
          cases rest with
          | nil => simp at hc
          | cons y rest2 => exact hlast c (by rw [List.getLast?_cons_cons]; exact hc)
        rw [List.cons_append, colorNumbers_nomatch none none x (rest ++ b) happ,
          colorNumbers_nomatch none none x rest hm,
          ih rest b (by simpa using hl) hlast2 hhead]
        rfl
      | some caps =>
        obtain ⟨x2, d, y, tail, heq, hx, hd, hy⟩ := numRe_eq_some _ _ hm
        simp only [List.cons.injEq] at heq
        obtain ⟨rfl, rfl⟩ := heq
        have hlast2 : ∀ c, tail.getLast? = some c → isDigit18 c = false := by
          intro c hc
          cases tail with
          | nil => simp at hc
          | cons z tail2 =>
            exact hlast c (by
              rw [List.getLast?_cons_cons, List.getLast?_cons_cons, List.getLast?_cons_cons]
              exact hc)
        rw [List.cons_append, List.cons_append, List.cons_append,
          colorNumbers_match none none x d y _ hx hd hy,
          colorNumbers_match none none x d y tail hx hd hy,
          ih tail b (by simp at hl; omega) hlast2 hhead]
        simp

theorem colorNumbers_digits (ds tail : List Char) (hds : ∀ c ∈ ds, isDigit c = true) :
    replaceFrom numRe numRepl 0 none (ds ++ tail) =
      ds ++ replaceFrom numRe numRepl 0 none tail := by
  induction ds with
  | nil => rfl
  | cons d ds ih =>
    rw [List.cons_append,
      colorNumbers_nomatch none none d _
        (numRe_of_not_isSpace d _ (isDigit_not_isSpace d (hds d (by simp)))),
      ih (fun c hc => hds c (by simp [hc]))]
    rfl

theorem colorNumbers_spaces_bar (ws tail : List Char) (hws : ∀ c ∈ ws, isSpace c = true) :
    replaceFrom numRe numRepl 0 none (ws ++ '|' :: tail) =
      ws ++ '|' :: replaceFrom numRe numRepl 0 none tail := by
  induction ws with
  | nil =>
    rw [List.nil_append,
      colorNumbers_nomatch none none '|' tail (numRe_of_not_isSpace '|' tail (by decide))]
    rfl
  | cons w ws ih =>
    have hws2 : ∀ c ∈ ws, isSpace c = true := fun c hc => hws c (by simp [hc])
    have hnone : numRe none (w :: (ws ++ '|' :: tail)) = none := by
      cases ws with
      | nil => exact numRe_of_second w '|' tail (by decide)
      | cons v ws2 =>
        exact numRe_of_second w v _ (isSpace_not_isDigit18 v (hws v (by simp)))
    rw [List.cons_append, colorNumbers_nomatch none none w _ hnone, ih hws2]
    rfl

theorem numRe_before_label (s : Char) (ds ws tail : List Char)
    (hlen : ds.length = 1 ∨ ds.length = 2) (hds : ∀ c ∈ ds, isDigit c = true)
    (hslip : ¬ ∃ d, ds = [d] ∧ isDigit18 d = true ∧ ws ≠ []) :
    numRe none (s :: (ds ++ (ws ++ '|' :: tail))) = none := by
  match ds, hlen, hds, hslip with
  | [], hlen, _, _ => simp at hlen
  | _ :: _ :: _ :: _, hlen, _, _ => simp at hlen
  | [d1, d2], _, hds, _ =>
    exact numRe_of_third s d1 d2 _ (isDigit_not_isSpace d2 (hds d2 (by simp)))
  | [d1], _, _, hslip =>
    cases ws with
    | nil => exact numRe_of_third s d1 '|' tail (by decide)
    | cons w ws2 =>
      have hd : isDigit18 d1 = false := by
        cases h18 : isDigit18 d1 with
        | false => rfl
        | true => exact absurd ⟨d1, rfl, h18, by simp⟩ hslip
      exact numRe_of_second s d1 _ hd

theorem colorNumbers_label (sp ds ws tail : List Char) (hsp : ∀ c ∈ sp, isSpace c = true)
    (hlen : ds.length = 1 ∨ ds.length = 2) (hds : ∀ c ∈ ds, isDigit c = true)
    (hslip : ¬ ∃ d, ds = [d] ∧ isDigit18 d = true ∧ ws ≠ []) :
    replaceFrom numRe numRepl 0 none (sp ++ (ds ++ (ws ++ '|' :: tail))) =
      sp ++ (ds ++ replaceFrom numRe numRepl 0 none (ws ++ '|' :: tail)) := by
  induction sp with
  | nil => exact colorNumbers_digits ds _ hds
  | cons s sp ih =>
    have hsp2 : ∀ c ∈ sp, isSpace c = true := fun c hc => hsp c (by simp [hc])
    have hnone : numRe none (s :: (sp ++ (ds ++ (ws ++ '|' :: tail)))) = none := by
      cases sp with
      | nil => exact numRe_before_label s ds ws tail hlen hds hslip
      | cons v sp2 =>
        exact numRe_of_second s v _ (isSpace_not_isDigit18 v (hsp v (by simp)))
    rw [List.cons_append, colorNumbers_nomatch none none s _ hnone, ih hsp2]
    rfl

theorem colorNumbers_getLast (n : Nat) :
    ∀ l : List Char, l.length ≤ n →
      (replaceFrom numRe numRepl 0 none l).getLast? = l.getLast? := by
  induction n with
  | zero =>
    intro l hl
    have hnil : l = [] := List.length_eq_zero.1 (Nat.le_zero.1 hl)
    subst hnil
    rw [colorNumbers_nil]
  | succ n ih =>
    intro l hl
    cases l with
    | nil => rw [colorNumbers_nil]
    | cons a rest =>
      cases hm : numRe none (a :: rest) with
      | none =>
        rw [colorNumbers_nomatch none none a rest hm, List.getLast?_cons, List.getLast?_cons,
          ih rest (by simpa using hl)]
      | some caps =>
        obtain ⟨a2, d, b, tail, heq, ha, hd, hb⟩ := numRe_eq_some _ _ hm
        simp only [List.cons.injEq] at heq
        obtain ⟨rfl, rfl⟩ := heq
        rw [colorNumbers_match none none a d b tail ha hd hb, List.getLast?_cons,
          List.getLast?_append, List.getLast?_cons, ih tail (by simp at hl; omega)]
        simp [List.getLast?_cons]


/-! ## Row labels -/

theorem escapeHtml_append (a b : List Char) :
    escapeHtml (a ++ b) = escapeHtml a ++ escapeHtml b := by
  simp only [escapeHtml_eq_flatMap, List.flatMap_append]

theorem escapeHtml_id (l : List Char) (h : ∀ c ∈ l, escapeChar c = [c]) : escapeHtml l = l := by
  rw [escapeHtml_eq_flatMap]
  induction l with
  | nil => rfl
  | cons c l ih =>
    rw [List.flatMap_cons, h c (by simp), ih (fun x hx => h x (by simp [hx]))]
    rfl

theorem escapeHtml_spaces (l : List Char) (h : ∀ c ∈ l, isSpace c = true) : escapeHtml l = l :=
  escapeHtml_id l (fun c hc => escapeChar_of_isSpace c (h c hc))

theorem escapeHtml_digits (l : List Char) (h : ∀ c ∈ l, isDigit c = true) : escapeHtml l = l :=
  escapeHtml_id l (fun c hc => escapeChar_of_isDigit c (h c hc))

theorem escapeHtml_cons_bar (post : List Char) :
    escapeHtml ('|' :: post) = '|' :: escapeHtml post := by
  rw [show '|' :: post = ['|'] ++ post from rfl, escapeHtml_append,
    escapeHtml_id ['|'] (by decide)]
  rfl

theorem escapeHtml_lineStart (pre : List Char) (h : AtLineStart pre) :
    lineStart (escapeHtml pre).getLast? = true := by
  rcases h with rfl | ⟨p, c, rfl, hc⟩
  · rfl
  · rw [escapeHtml_append, escapeHtml_spaces [c] (by
      intro x hx
      rw [List.mem_singleton.1 hx]
      exact isLineTerminator_isSpace c hc)]
    simpa [lineStart] using hc

/-- C10 (amended): when a line of the text starts with at least one white-space character,
then 1 or 2 digits, then optional white space, then `|`, and the digits are not a single
digit 1..8 directly followed by white space, `decorateBoardText` leaves the leading white
space unchanged and wraps the digits in `<span class="label">`..`</span>`; the text before
the line and the text after the digits are decorated as they are on their own. -/
theorem decorateBoardText_label (pre sp ds ws post : List Char)
    (hstart : AtLineStart pre) (hspne : sp ≠ []) (hsp : ∀ c ∈ sp, isSpace c = true)
    (hlen : ds.length = 1 ∨ ds.length = 2) (hds : ∀ c ∈ ds, isDigit c = true)
    (hws : ∀ c ∈ ws, isSpace c = true)
    (hslip : ¬ ∃ d, ds = [d] ∧ isDigit18 d = true ∧ ws ≠ []) :
    decorateBoardText (pre ++ sp ++ ds ++ ws ++ '|' :: post) =
      decorateBoardText pre ++ sp ++ labelTag ds ++ decorateBoardText (ws ++ '|' :: post) := by
  have hE : escapeHtml (pre ++ sp ++ ds ++ ws ++ '|' :: post) =
      escapeHtml pre ++ (sp ++ (ds ++ (ws ++ '|' :: escapeHtml post))) := by
    rw [escapeHtml_append, escapeHtml_append, escapeHtml_append, escapeHtml_append,
      escapeHtml_spaces sp hsp, escapeHtml_digits ds hds, escapeHtml_spaces ws hws,
      escapeHtml_cons_bar]
    simp
  have hEtail : escapeHtml (ws ++ '|' :: post) = ws ++ '|' :: escapeHtml post := by
    rw [escapeHtml_append, escapeHtml_spaces ws hws, escapeHtml_cons_bar]
  have hpre := escapeHtml_lineStart pre hstart
  have hlast : ∀ c, (escapeHtml pre).getLast? = some c → isDigit18 c = false := by
    intro c hc
    rw [hc] at hpre
    exact isSpace_not_isDigit18 c (isLineTerminator_isSpace c hpre)
  have hhead : ∀ c, (sp ++ (ds ++ (ws ++ '|' :: escapeHtml post))).head? = some c →
      isDigit18 c = false := by
    intro c hc
    cases sp with
    | nil => exact absurd rfl hspne
    | cons s sp2 =>
      simp only [List.cons_append, List.head?_cons, Option.some.injEq] at hc
      subst hc
      exact isSpace_not_isDigit18 s (hsp s (by simp))
  have hcn := colorNumbers_append _ (escapeHtml pre) _ (Nat.le_refl _) hlast hhead
  rw [colorNumbers_label sp ds ws (escapeHtml post) hsp hlen hds hslip,
    colorNumbers_spaces_bar ws _ hws] at hcn
  have hbar : barAhead (ws ++ '|' :: replaceFrom numRe numRepl 0 none (escapeHtml post)) = true :=
    barAhead_append ws _ hws
  have hpre2 : lineStart (replaceFrom numRe numRepl 0 none (escapeHtml pre)).getLast? = true := by
    rw [colorNumbers_getLast _ _ (Nat.le_refl _)]
    exact hpre
  have hlb := colorLabels_append_label sp ds _ hspne hsp hlen hds hbar _
    (replaceFrom numRe numRepl 0 none (escapeHtml pre)) none (Nat.le_refl _) (fun _ => rfl) hpre2
  unfold decorateBoardText replaceG
  rw [hE, hEtail, hcn, colorNumbers_spaces_bar ws _ hws]
  rw [show sp ++ (ds ++ (ws ++ '|' :: replaceFrom numRe numRepl 0 none (escapeHtml post))) =
    sp ++ ds ++ (ws ++ '|' :: replaceFrom numRe numRepl 0 none (escapeHtml post)) by simp]
  rw [hlb, colorLabels_spaces_bar _ ws _ hws, colorLabels_spaces_bar none ws _ hws]

set_option maxRecDepth 8000 in
theorem decorateBoardText_label_witness :
    decorateBoardText ([] ++ " ".toList ++ "10".toList ++ " ".toList ++ '|' :: " 4 | 5\n".toList) =
      decorateBoardText [] ++ " ".toList ++ labelTag "10".toList ++
        decorateBoardText (" ".toList ++ '|' :: " 4 | 5\n".toList) ∧
    decorateBoardText " 10 | 4 | 5\n".toList =
      (" <span class=\"label\">10</span> | <span class=\"num4\">4</span> |" ++
        " <span class=\"num5\">5</span>\n").toList ∧
    decorateBoardText labelledBoard =
      (" <span class=\"num1\">1</span> | # <span class=\"num2\">2</span> \n" ++
        " <span class=\"label\">10</span> | <span class=\"num4\">4</span> |" ++
        " <span class=\"num5\">5</span>\n").toList :=
  ⟨decorateBoardText_label [] " ".toList "10".toList " ".toList " 4 | 5\n".toList
     (Or.inl rfl) (by decide) (by decide) (by decide) (by decide) (by decide)
     (by rintro ⟨d, h, _⟩; simp at h),
   by decide, by decide⟩

set_option maxRecDepth 8000 in
/-- C10 as stated fails twice.  The leading 3 of `  3 | 4 | 5\n` is wrapped in the numbered
tag `num3` by the first substitution and gets no label tag.  In the boardish text
`12| # |\n` the line starts with two digits followed by `|`, without white space before
them, and nothing is wrapped. -/
theorem label_missing_on_examples :
    decorateBoardText "  3 | 4 | 5\n".toList =
      ("  <span class=\"num3\">3</span> | <span class=\"num4\">4</span> |" ++
        " <span class=\"num5\">5</span>\n").toList ∧
    isBoardish "12| # |\n".toList = true ∧
    decorateBoardText "12| # |\n".toList = "12| # |\n".toList := by
  decide

set_option maxRecDepth 8000 in
/-- C3 at a failing input: in ` 1 2 3 ` each of the digits 1, 2, 3 has a blank on each side,
and `decorateBoardText` wraps 1 and 3 only; the blank between 1 and 2 belongs to the match
of 1, so the scan resumes at 2 and the digit 2 stays bare. -/
theorem middle_digit_not_wrapped :
    isBoardish " 1 2 3 ".toList = true ∧
    decorateBoardText " 1 2 3 ".toList =
      " <span class=\"num1\">1</span> 2 <span class=\"num3\">3</span> ".toList := by
  decide

end Minesweeper
